import Mathlib

/-!
# bcStat: linear regression with greedy outlier removal

Shallow embedding of `linearinterpolation.go`.

Numbers.  The Go code computes on `float64`.  The embedding keeps the IEEE
special values, because the control flow of the program depends on them
(`math.IsNaN`, comparisons that are false on NaN, division by zero), and
replaces the finite floats by exact rationals: in `doRegression`,
`calculateR2`, `removeOutlier` and `LinearRegression` rounding and overflow are
not modelled.  A second embedding of the same functions, suffixed `R`, rounds
every operation as binary64 does; it serves the one statement that is about
the rounded results.  Zero carries no sign; every divisor of the program that can be zero
is a sum of squares or a difference `x - x`, which is `+0` in IEEE arithmetic,
so a zero divisor is treated as `+0`.  The constant `0.95` is the rational
`95/100`, and `float64(len(trendline))` is the length as a rational.

Slices.  A `[]DataPoint` is a `List DataPoint` and a `[]int` a `List Int` (the
nil slice is the empty list).  `LinearRegressionMem` repeats `LinearRegression`
with the backing array of the caller's slice as explicit state.
-/

namespace BcStat

/-- A `float64` in exact arithmetic: NaN, the two infinities, or a rational. -/
inductive F64 where
  | nan : F64
  | pinf : F64
  | ninf : F64
  | fin (q : ℚ) : F64
  deriving DecidableEq

namespace F64

/-- Go `math.IsNaN`. -/
def isNaN : F64 → Bool
  | nan => true
  | _ => false

/-- Unary minus. -/
def neg : F64 → F64
  | nan => nan
  | pinf => ninf
  | ninf => pinf
  | fin q => fin (-q)

/-- IEEE addition without rounding: `+Inf + -Inf` is NaN. -/
def add : F64 → F64 → F64
  | nan, _ => nan
  | _, nan => nan
  | pinf, ninf => nan
  | ninf, pinf => nan
  | pinf, _ => pinf
  | _, pinf => pinf
  | ninf, _ => ninf
  | _, ninf => ninf
  | fin a, fin b => fin (a + b)

/-- IEEE subtraction: `a - b` is `a + (-b)`. -/
def sub (a b : F64) : F64 := add a (neg b)

/-- The infinity of the given sign (`true` is negative). -/
def infOf (negative : Bool) : F64 := if negative then ninf else pinf

/-- IEEE multiplication without rounding: `Inf * 0` is NaN. -/
def mul : F64 → F64 → F64
  | nan, _ => nan
  | _, nan => nan
  | fin a, fin b => fin (a * b)
  | pinf, fin b => if b = 0 then nan else infOf (decide (b < 0))
  | ninf, fin b => if b = 0 then nan else infOf (decide (0 < b))
  | fin a, pinf => if a = 0 then nan else infOf (decide (a < 0))
  | fin a, ninf => if a = 0 then nan else infOf (decide (0 < a))
  | pinf, pinf => pinf
  | ninf, ninf => pinf
  | pinf, ninf => ninf
  | ninf, pinf => ninf

/-- IEEE division without rounding: `0/0` and `Inf/Inf` are NaN, a nonzero
number over zero is the infinity of its sign, a number over an infinity is 0. -/
def div : F64 → F64 → F64
  | nan, _ => nan
  | _, nan => nan
  | fin a, fin b =>
      if b = 0 then (if a = 0 then nan else infOf (decide (a < 0))) else fin (a / b)
  | fin _, pinf => fin 0
  | fin _, ninf => fin 0
  | pinf, fin b => infOf (decide (b < 0))
  | ninf, fin b => infOf (decide (0 ≤ b))
  | pinf, pinf => nan
  | pinf, ninf => nan
  | ninf, pinf => nan
  | ninf, ninf => nan

/-- Go `a < b` on floats: false as soon as one side is NaN. -/
def lt : F64 → F64 → Bool
  | nan, _ => false
  | _, nan => false
  | _, ninf => false
  | ninf, _ => true
  | pinf, _ => false
  | fin _, pinf => true
  | fin a, fin b => decide (a < b)

/-- Go `a > b` on floats. -/
def gt (a b : F64) : Bool := lt b a

/-- Go `a >= b` on floats: false as soon as one side is NaN. -/
def ge : F64 → F64 → Bool
  | nan, _ => false
  | _, nan => false
  | pinf, _ => true
  | _, ninf => true
  | ninf, _ => false
  | fin _, pinf => false
  | fin a, fin b => decide (b ≤ a)

instance : Add F64 := ⟨add⟩
instance : Sub F64 := ⟨sub⟩
instance : Mul F64 := ⟨mul⟩
instance : Div F64 := ⟨div⟩

end F64

open F64

/-- Go `type DataPoint struct { X float64; Y float64 }`. -/
structure DataPoint where
  X : F64
  Y : F64
  deriving DecidableEq

/-- The four accumulators of the loop of `doRegression`. -/
structure RegSums where
  sumX : F64
  sumY : F64
  sumXY : F64
  sumXSquare : F64

/-- One iteration of `for _, point := range trendline` in `doRegression`. -/
def regStep (s : RegSums) (point : DataPoint) : RegSums :=
  { sumX := s.sumX + point.X
    sumY := s.sumY + point.Y
    sumXY := s.sumXY + point.X * point.Y
    sumXSquare := s.sumXSquare + point.X * point.X }

/-- Go `doRegression`: closed-form slope `A` and intercept `B`; a NaN
`forceIntercept` selects the free-intercept formulas. -/
def doRegression (trendline : List DataPoint) (forceIntercept : F64) : F64 × F64 :=
  let s := trendline.foldl regStep ⟨fin 0, fin 0, fin 0, fin 0⟩
  let n : F64 := fin (trendline.length : ℚ)
  if forceIntercept.isNaN then
    let A := (n * s.sumXY - s.sumX * s.sumY) / (n * s.sumXSquare - s.sumX * s.sumX)
    let B := (s.sumY - A * s.sumX) / n
    (A, B)
  else
    let A := (s.sumXY - forceIntercept * s.sumX) / s.sumXSquare
    (A, forceIntercept)

/-- The accumulators of the first loop of `calculateR2` that are read
afterwards (`sumPredictedY` and `sumPredictedYSquared` are written but never
read, so they are left out). -/
structure YSums where
  sumY : F64
  sumYSquared : F64

/-- One iteration of the first loop of `calculateR2`. -/
def yStep (s : YSums) (point : DataPoint) : YSums :=
  { sumY := s.sumY + point.Y
    sumYSquared := s.sumYSquared + point.Y * point.Y }

/-- One iteration of the second loop of `calculateR2`. -/
def diffStep (A B : F64) (sumYDiffSquared : F64) (point : DataPoint) : F64 :=
  let predictedY := A * point.X + B
  let diff := point.Y - predictedY
  sumYDiffSquared + diff * diff

/-- Go `calculateR2`. -/
def calculateR2 (trendline : List DataPoint) (forceIntercept : F64) : F64 :=
  if trendline.length < 2 then nan
  else
    let (A, B) := doRegression trendline forceIntercept
    let s := trendline.foldl yStep ⟨fin 0, fin 0⟩
    let n : F64 := fin (trendline.length : ℚ)
    let sumYDiffSquared := trendline.foldl (diffStep A B) (fin 0)
    fin 1 - (sumYDiffSquared / (s.sumYSquared - (s.sumY * s.sumY) / n))

/-- One iteration of `for i := range trendline` in `removeOutlier`; the state
is `(highestR2, highestR2Index)` and `temp` is the copy with position `i`
deleted. -/
def outlierStep (trendline : List DataPoint) (forceIntercept : F64)
    (st : F64 × Int) (i : Nat) : F64 × Int :=
  let temp := trendline.eraseIdx i
  let r2 := calculateR2 temp forceIntercept
  if F64.gt r2 st.1 then (r2, (i : Int)) else st

/-- Go `removeOutlier`: the position whose deletion gives the highest R²
above the R² of the whole list, or `-1`. -/
def removeOutlier (trendline : List DataPoint) (forceIntercept : F64) : Int :=
  ((List.range trendline.length).foldl (outlierStep trendline forceIntercept)
    (calculateR2 trendline forceIntercept, -1)).2

/-- Go `LinearRegression`. The result is `(A, B, r2, removedIndexes)`. -/
def LinearRegression (trendline : List DataPoint) (maxOutliers : Int) (forceIntercept : F64) :
    F64 × F64 × F64 × List Int :=
  if trendline.length < 2 then (nan, nan, nan, [])
  else
    let (A, B) := doRegression trendline forceIntercept
    let r2 := calculateR2 trendline forceIntercept
    if F64.lt r2 (fin (95 / 100)) ∧ maxOutliers > 0 then
      let removedIndex := removeOutlier trendline forceIntercept
      if removedIndex ≠ -1 then
        let rec_ := LinearRegression (trendline.eraseIdx removedIndex.toNat) (maxOutliers - 1)
          forceIntercept
        (rec_.1, rec_.2.1, rec_.2.2.1, rec_.2.2.2 ++ [removedIndex])
      else (A, B, r2, [removedIndex])
    else (A, B, r2, [])
termination_by maxOutliers.toNat
decreasing_by omega

/-- Go `SimpleLinearRegression`. -/
def SimpleLinearRegression (trendline : List DataPoint) : F64 × F64 × F64 :=
  let r := LinearRegression trendline 0 nan
  (r.1, r.2.1, r.2.2.1)

/-- A sample with rational coordinates. -/
def pt (x y : ℚ) : DataPoint := ⟨fin x, fin y⟩

/-! ## Rational samples and their sums (used to state and prove the exact-arithmetic results) -/

/-- The sample list with the given rational coordinates. -/
def ofRats (pts : List (ℚ × ℚ)) : List DataPoint := pts.map fun p => pt p.1 p.2
/-- Sum of `g` over a list of rational samples. -/
def qsum (g : ℚ × ℚ → ℚ) (pts : List (ℚ × ℚ)) : ℚ := (pts.map g).sum

/-- `n·Σx² − (Σx)²`, the divisor of the free-intercept slope. -/
def denomX (pts : List (ℚ × ℚ)) : ℚ :=
  (pts.length : ℚ) * qsum (fun p => p.1 * p.1) pts - qsum (fun p => p.1) pts * qsum (fun p => p.1) pts

/-- The free-intercept slope as a rational. -/
def slopeQ (pts : List (ℚ × ℚ)) : ℚ :=
  ((pts.length : ℚ) * qsum (fun p => p.1 * p.2) pts - qsum (fun p => p.1) pts * qsum (fun p => p.2) pts)
    / denomX pts

/-- The free-intercept intercept as a rational. -/
def interceptQ (pts : List (ℚ × ℚ)) : ℚ :=
  (qsum (fun p => p.2) pts - slopeQ pts * qsum (fun p => p.1) pts) / (pts.length : ℚ)

/-- Sum of squared residuals about the line `y = a·x + b`. -/
def sse (a b : ℚ) (pts : List (ℚ × ℚ)) : ℚ :=
  qsum (fun p => (p.2 - (a * p.1 + b)) * (p.2 - (a * p.1 + b))) pts

/-- `Σy² − (Σy)²/n`, the divisor of R². -/
def sstQ (pts : List (ℚ × ℚ)) : ℚ :=
  qsum (fun p => p.2 * p.2) pts - qsum (fun p => p.2) pts * qsum (fun p => p.2) pts / (pts.length : ℚ)

/-- The samples `(x, x)`: the X values paired with themselves. -/
def xx (pts : List (ℚ × ℚ)) : List (ℚ × ℚ) := pts.map fun p => (p.1, p.1)

/-! ## The caller's slice as explicit state -/

/-- Go `append(s, elems...)` where `s` is the slice of length `sLen` at the
start of the backing array `mem` and the capacity suffices
(`sLen + len(elems) ≤ cap`): the elements are written into `mem` right after
`s`; no new array is allocated.  The result is the backing array afterwards. -/
def appendInPlace (mem : List DataPoint) (sLen : Nat) (elems : List DataPoint) :
    List DataPoint :=
  mem.take sLen ++ elems ++ mem.drop (sLen + elems.length)

/-- Go `LinearRegression` with the slice `trendline` made explicit: `mem` is the
backing array and `len` the length of the slice (which starts at the start of
the array).  The result pairs the returned values with the backing array as it
stands when the call returns.  `trendline[:removedIndex]` keeps the capacity of
`trendline`, and `removedIndex + len(trendline[removedIndex+1:]) = len - 1`
fits in it, so the `append` of line 60 always writes in place. -/
def LinearRegressionMem (mem : List DataPoint) (len : Nat) (maxOutliers : Int)
    (forceIntercept : F64) : (F64 × F64 × F64 × List Int) × List DataPoint :=
  let trendline := mem.take len
  if trendline.length < 2 then ((nan, nan, nan, []), mem)
  else
    let (A, B) := doRegression trendline forceIntercept
    let r2 := calculateR2 trendline forceIntercept
    if F64.lt r2 (fin (95 / 100)) ∧ maxOutliers > 0 then
      let removedIndex := removeOutlier trendline forceIntercept
      if removedIndex ≠ -1 then
        let elems := trendline.drop (removedIndex.toNat + 1)
        let mem1 := appendInPlace mem removedIndex.toNat elems
        let rec_ := LinearRegressionMem mem1 (removedIndex.toNat + elems.length) (maxOutliers - 1)
          forceIntercept
        ((rec_.1.1, rec_.1.2.1, rec_.1.2.2.1, rec_.1.2.2.2 ++ [removedIndex]), rec_.2)
      else ((A, B, r2, [removedIndex]), mem)
    else ((A, B, r2, []), mem)
termination_by maxOutliers.toNat
decreasing_by omega

/-! ## Binary64 rounding: the embedding with rounded operations

The definitions above compute on exact rationals.  The definitions of this
section, suffixed `R`, repeat them with every arithmetic operation rounded as
IEEE 754 binary64 does (round to nearest, ties to even, 53-bit significand,
gradual underflow, overflow to infinity), one operation at a time (no fused
multiply-add).  They are used where a statement is about the rounded results. -/

/-- The rational `2^e`, for an integer exponent. -/
def pow2 (e : Int) : ℚ :=
  if 0 ≤ e then ((2 ^ e.toNat : Nat) : ℚ) else 1 / ((2 ^ (-e).toNat : Nat) : ℚ)

/-- Halving `n` until it is below 2, at most `fuel` times: the number of
halvings. -/
def log2Fuel : Nat → Nat → Nat
  | 0, _ => 0
  | fuel + 1, n => if n < 2 then 0 else log2Fuel fuel (n / 2) + 1

/-- The natural number `⌊log₂ n⌋` (0 for `n = 0`). -/
def log2Nat (n : Nat) : Nat := log2Fuel n n

/-- The integer `⌊log₂ q⌋`, for a positive rational `q`: it is
`⌊log₂ num⌋ − ⌊log₂ den⌋` or one less. -/
def ilog2 (q : ℚ) : Int :=
  let k : Int := (log2Nat q.num.toNat : Int) - (log2Nat q.den : Int)
  if pow2 k ≤ q then k else k - 1

/-- The integer nearest to a rational `r ≥ 0`, a tie going to the even one. -/
def roundHalfEven (r : ℚ) : Nat :=
  let n := r.num.toNat / r.den
  let rem := r.num.toNat % r.den
  if 2 * rem < r.den then n
  else if r.den < 2 * rem then n + 1
  else if n % 2 = 0 then n else n + 1

/-- IEEE 754 binary64 rounding of a rational: the nearest multiple of
`2^e`, ties to even, where `e = max (⌊log₂ |q|⌋ − 52) (−1074)`; a result of
magnitude `2^1024` or more is the infinity of that sign. -/
def round64 (q : ℚ) : F64 :=
  if q = 0 then fin 0
  else
    let a := if q < 0 then -q else q
    let e := max (ilog2 a - 52) (-1074)
    let r := (roundHalfEven (a / pow2 e) : ℚ) * pow2 e
    if pow2 1024 ≤ r then F64.infOf (decide (q < 0))
    else fin (if q < 0 then -r else r)

/-- Rounding of an exact result: the special values are kept. -/
def F64.rnd : F64 → F64
  | fin q => round64 q
  | x => x

/-- Go `a + b` on `float64`. -/
def F64.addR (a b : F64) : F64 := (a + b).rnd

/-- Go `a - b` on `float64`. -/
def F64.subR (a b : F64) : F64 := (a - b).rnd

/-- Go `a * b` on `float64`. -/
def F64.mulR (a b : F64) : F64 := (a * b).rnd

/-- Go `a / b` on `float64`. -/
def F64.divR (a b : F64) : F64 := (a / b).rnd

/-- One iteration of the loop of `doRegression`, operations rounded. -/
def regStepR (s : RegSums) (point : DataPoint) : RegSums :=
  { sumX := F64.addR s.sumX point.X
    sumY := F64.addR s.sumY point.Y
    sumXY := F64.addR s.sumXY (F64.mulR point.X point.Y)
    sumXSquare := F64.addR s.sumXSquare (F64.mulR point.X point.X) }

/-- Go `doRegression`, operations rounded. -/
def doRegressionR (trendline : List DataPoint) (forceIntercept : F64) : F64 × F64 :=
  let s := trendline.foldl regStepR ⟨fin 0, fin 0, fin 0, fin 0⟩
  let n : F64 := (fin (trendline.length : ℚ)).rnd
  if forceIntercept.isNaN then
    let A := F64.divR (F64.subR (F64.mulR n s.sumXY) (F64.mulR s.sumX s.sumY))
      (F64.subR (F64.mulR n s.sumXSquare) (F64.mulR s.sumX s.sumX))
    let B := F64.divR (F64.subR s.sumY (F64.mulR A s.sumX)) n
    (A, B)
  else
    let A := F64.divR (F64.subR s.sumXY (F64.mulR forceIntercept s.sumX)) s.sumXSquare
    (A, forceIntercept)

/-- One iteration of the first loop of `calculateR2`, operations rounded. -/
def yStepR (s : YSums) (point : DataPoint) : YSums :=
  { sumY := F64.addR s.sumY point.Y
    sumYSquared := F64.addR s.sumYSquared (F64.mulR point.Y point.Y) }

/-- One iteration of the second loop of `calculateR2`, operations rounded. -/
def diffStepR (A B : F64) (sumYDiffSquared : F64) (point : DataPoint) : F64 :=
  let predictedY := F64.addR (F64.mulR A point.X) B
  let diff := F64.subR point.Y predictedY
  F64.addR sumYDiffSquared (F64.mulR diff diff)

/-- Go `calculateR2`, operations rounded. -/
def calculateR2R (trendline : List DataPoint) (forceIntercept : F64) : F64 :=
  if trendline.length < 2 then nan
  else
    let (A, B) := doRegressionR trendline forceIntercept
    let s := trendline.foldl yStepR ⟨fin 0, fin 0⟩
    let n : F64 := (fin (trendline.length : ℚ)).rnd
    let sumYDiffSquared := trendline.foldl (diffStepR A B) (fin 0)
    F64.subR (fin 1)
      (F64.divR sumYDiffSquared (F64.subR s.sumYSquared (F64.divR (F64.mulR s.sumY s.sumY) n)))

/-- One iteration of the loop of `removeOutlier`, operations rounded. -/
def outlierStepR (trendline : List DataPoint) (forceIntercept : F64)
    (st : F64 × Int) (i : Nat) : F64 × Int :=
  let temp := trendline.eraseIdx i
  let r2 := calculateR2R temp forceIntercept
  if F64.gt r2 st.1 then (r2, (i : Int)) else st

/-- Go `removeOutlier`, operations rounded. -/
def removeOutlierR (trendline : List DataPoint) (forceIntercept : F64) : Int :=
  ((List.range trendline.length).foldl (outlierStepR trendline forceIntercept)
    (calculateR2R trendline forceIntercept, -1)).2

/-- Go `LinearRegression`, operations rounded; `0.95` is the binary64 nearest
to 95/100. -/
def LinearRegressionR (trendline : List DataPoint) (maxOutliers : Int) (forceIntercept : F64) :
    F64 × F64 × F64 × List Int :=
  if trendline.length < 2 then (nan, nan, nan, [])
  else
    let (A, B) := doRegressionR trendline forceIntercept
    let r2 := calculateR2R trendline forceIntercept
    if F64.lt r2 (round64 (95 / 100)) ∧ maxOutliers > 0 then
      let removedIndex := removeOutlierR trendline forceIntercept
      if removedIndex ≠ -1 then
        let rec_ := LinearRegressionR (trendline.eraseIdx removedIndex.toNat) (maxOutliers - 1)
          forceIntercept
        (rec_.1, rec_.2.1, rec_.2.2.1, rec_.2.2.2 ++ [removedIndex])
      else (A, B, r2, [removedIndex])
    else (A, B, r2, [])
termination_by maxOutliers.toNat
decreasing_by omega

/-- Two samples with large, nearly equal Y values: `(1, 2²⁷+1)` and
`(2, 2²⁷+2)`. -/
def nearlyFlat : List DataPoint := [pt 1 134217729, pt 2 134217730]

/-! ## Vocabulary of the statements -/

/-- Whether the value is an ordinary number (neither NaN nor infinite). -/
def F64.isFinite : F64 → Bool
  | fin _ => true
  | _ => false

/-- Whether the value is not a negative number: NaN, `+Inf` or a rational
`≥ 0`. -/
def F64.notNegative : F64 → Bool
  | nan => true
  | pinf => true
  | ninf => false
  | fin q => decide (0 ≤ q)

/-- The rational value of a finite number (0 for the special values). -/
def F64.toRat : F64 → ℚ
  | fin q => q
  | _ => 0

/-- The coordinates of a sample as rationals. -/
def toPair (p : DataPoint) : ℚ × ℚ := (p.X.toRat, p.Y.toRat)

/-- Sum of squared vertical residuals of the samples about `y = a·x + b`. -/
def residualSS (trendline : List DataPoint) (a b : ℚ) : ℚ :=
  sse a b (trendline.map toPair)

/-- The input with every position listed in `idx` deleted, all at once. -/
def deletePositions (trendline : List DataPoint) (idx : List Int) : List DataPoint :=
  (((List.range trendline.length).zip trendline).filter
    (fun ip => !(idx.contains (ip.1 : Int)))).map Prod.snd

/-- The trial of `removeOutlier` at position `i`: the R² of the copy with
position `i` deleted. -/
def trialR2 (trendline : List DataPoint) (forceIntercept : F64) (i : Nat) : F64 :=
  calculateR2 (trendline.eraseIdx i) forceIntercept

/-- The number of samples a removed-index list stands for: its non-negative
entries. -/
def removedCount (removed : List Int) : Nat :=
  (removed.filter fun i => decide (0 ≤ i)).length

/-- One step of the replay of a removed-index list: entry `-1` is skipped, any
other entry is deleted from the working list as it stands. -/
def replayStep (cur : List DataPoint) (i : Int) : List DataPoint :=
  if i = -1 then cur else cur.eraseIdx i.toNat

/-- The working list after replaying a removed-index list on the input, read
from its last entry to its first. -/
def replay (trendline : List DataPoint) (removed : List Int) : List DataPoint :=
  removed.reverse.foldl replayStep trendline

/-- Mean of the Y values. -/
def meanY (trendline : List DataPoint) : ℚ :=
  (trendline.map fun p => p.Y.toRat).sum / (trendline.length : ℚ)

/-- Total sum of squares `Σ(y_i − ȳ)²`. -/
def totalSS (trendline : List DataPoint) : ℚ :=
  (trendline.map fun p => (p.Y.toRat - meanY trendline) * (p.Y.toRat - meanY trendline)).sum

/-- The coefficient of determination as the spec words it, for the line
`y = A·x + B`: `1 − Σ(y_i − (A·x_i + B))² / Σ(y_i − ȳ)²`. -/
def textbookR2 (trendline : List DataPoint) (A B : ℚ) : ℚ :=
  1 - residualSS trendline A B / totalSS trendline

/-- Three samples, `(1,1)`, `(2,3)` and `(3,0)`. -/
def threePoints : List DataPoint := [pt 1 1, pt 2 3, pt 3 0]

/-- The four-point diamond `(0,1), (1,0), (1,2), (2,1)`. -/
def diamond : List DataPoint := [pt 0 1, pt 1 0, pt 1 2, pt 2 1]

/-- Five samples: `(2,2), (3,1), (4,0)` lie on `y = -x + 4`; `(1,0)` and
`(5,0)` do not. -/
def bump : List DataPoint := [pt 1 0, pt 2 2, pt 3 1, pt 4 0, pt 5 0]

/-- Two samples, `(1,1)` and `(2,3)`. -/
def twoPoints : List DataPoint := [pt 1 1, pt 2 3]

/-- The samples of `TestSimpleLinearRegression`, first case. -/
def scenarioA : List DataPoint :=
  [pt 1 100, pt 2 200, pt 3 300, pt 4 400, pt 5 500, pt 6 600, pt 7 700, pt 8 800]

/-- The samples of `TestLinearRegression`. -/
def scenarioB : List DataPoint :=
  [pt 1 200, pt 2 300, pt 3 0, pt 4 500, pt 5 600, pt 6 0, pt 7 800, pt 8 900]

/-! ## Theorems -/

/-! ### Finite samples: the loops as rational sums -/


theorem fin_add (a b : ℚ) : fin a + fin b = fin (a + b) := rfl
theorem fin_sub (a b : ℚ) : fin a - fin b = fin (a - b) := by
  show F64.add (fin a) (F64.neg (fin b)) = _
  simp [F64.add, F64.neg, sub_eq_add_neg]
theorem fin_mul (a b : ℚ) : fin a * fin b = fin (a * b) := rfl
theorem fin_div (a b : ℚ) (h : b ≠ 0) : fin a / fin b = fin (a / b) := by
  show F64.div (fin a) (fin b) = _
  simp [F64.div, h]

theorem qsum_nil (g : ℚ × ℚ → ℚ) : qsum g [] = 0 := rfl
theorem qsum_cons (g : ℚ × ℚ → ℚ) (p : ℚ × ℚ) (ps : List (ℚ × ℚ)) :
    qsum g (p :: ps) = g p + qsum g ps := by simp [qsum]

theorem length_ofRats (pts : List (ℚ × ℚ)) : (ofRats pts).length = pts.length := by
  simp [ofRats]

theorem foldl_regStep (pts : List (ℚ × ℚ)) (a b c d : ℚ) :
    (ofRats pts).foldl regStep ⟨fin a, fin b, fin c, fin d⟩ =
      ⟨fin (a + qsum (fun p => p.1) pts), fin (b + qsum (fun p => p.2) pts),
       fin (c + qsum (fun p => p.1 * p.2) pts), fin (d + qsum (fun p => p.1 * p.1) pts)⟩ := by
  induction pts generalizing a b c d with
  | nil => simp [ofRats, qsum]
  | cons p ps ih =>
    have := ih (a + p.1) (b + p.2) (c + p.1 * p.2) (d + p.1 * p.1)
    simp only [ofRats, List.map_cons, List.foldl_cons, regStep, pt, fin_add, fin_mul] at this ⊢
    rw [this]
    simp [qsum, add_assoc]

theorem foldl_yStep (pts : List (ℚ × ℚ)) (a b : ℚ) :
    (ofRats pts).foldl yStep ⟨fin a, fin b⟩ =
      ⟨fin (a + qsum (fun p => p.2) pts), fin (b + qsum (fun p => p.2 * p.2) pts)⟩ := by
  induction pts generalizing a b with
  | nil => simp [ofRats, qsum]
  | cons p ps ih =>
    have := ih (a + p.2) (b + p.2 * p.2)
    simp only [ofRats, List.map_cons, List.foldl_cons, yStep, pt, fin_add, fin_mul] at this ⊢
    rw [this]
    simp [qsum, add_assoc]

theorem foldl_diffStep (pts : List (ℚ × ℚ)) (A B c : ℚ) :
    (ofRats pts).foldl (diffStep (fin A) (fin B)) (fin c) =
      fin (c + qsum (fun p => (p.2 - (A * p.1 + B)) * (p.2 - (A * p.1 + B))) pts) := by
  induction pts generalizing c with
  | nil => simp [ofRats, qsum]
  | cons p ps ih =>
    have := ih (c + (p.2 - (A * p.1 + B)) * (p.2 - (A * p.1 + B)))
    simp only [ofRats, List.map_cons, List.foldl_cons, diffStep, pt, fin_add, fin_mul, fin_sub]
      at this ⊢
    rw [this]
    simp [qsum, add_assoc]

theorem doRegression_free (pts : List (ℚ × ℚ)) (hD : denomX pts ≠ 0) (hn : pts ≠ []) :
    doRegression (ofRats pts) nan = (fin (slopeQ pts), fin (interceptQ pts)) := by
  have hn0 : (pts.length : ℚ) ≠ 0 := by
    have : pts.length ≠ 0 := by simpa using hn
    exact_mod_cast this
  have hD2 : (pts.length : ℚ) * qsum (fun p => p.1 * p.1) pts
      - qsum (fun p => p.1) pts * qsum (fun p => p.1) pts ≠ 0 := hD
  simp only [doRegression, foldl_regStep, length_ofRats, F64.isNaN, if_true, fin_mul, fin_sub,
    zero_add]
  rw [fin_div _ _ hD2]
  simp only [fin_mul, fin_sub]
  rw [fin_div _ _ hn0]
  rfl

theorem doRegression_forced (pts : List (ℚ × ℚ)) (b : ℚ) (h : qsum (fun p => p.1 * p.1) pts ≠ 0) :
    doRegression (ofRats pts) (fin b) =
      (fin ((qsum (fun p => p.1 * p.2) pts - b * qsum (fun p => p.1) pts)
        / qsum (fun p => p.1 * p.1) pts), fin b) := by
  simp only [doRegression, foldl_regStep, F64.isNaN, fin_mul, fin_sub, zero_add]
  rw [fin_div _ _ h]
  simp

theorem calculateR2_fin (pts : List (ℚ × ℚ)) (f : F64) (A B : ℚ) (hlen : 2 ≤ pts.length)
    (hreg : doRegression (ofRats pts) f = (fin A, fin B)) (hsst : sstQ pts ≠ 0) :
    calculateR2 (ofRats pts) f = fin (1 - sse A B pts / sstQ pts) := by
  have hn0 : (pts.length : ℚ) ≠ 0 := by
    have : pts.length ≠ 0 := by omega
    exact_mod_cast this
  have hs : qsum (fun p => p.2 * p.2) pts
      - qsum (fun p => p.2) pts * qsum (fun p => p.2) pts / (pts.length : ℚ) ≠ 0 := hsst
  have hl : ¬ (ofRats pts).length < 2 := by rw [length_ofRats]; omega
  simp only [calculateR2, hl, if_false, hreg, foldl_yStep, foldl_diffStep, length_ofRats, fin_mul,
    zero_add]
  rw [fin_div _ _ hn0, fin_sub, fin_div _ _ hs, fin_sub, if_neg (by omega)]
  rfl

theorem sse_expand (a b : ℚ) (pts : List (ℚ × ℚ)) :
    sse a b pts = qsum (fun p => p.2 * p.2) pts - 2 * a * qsum (fun p => p.1 * p.2) pts
      - 2 * b * qsum (fun p => p.2) pts + a * a * qsum (fun p => p.1 * p.1) pts
      + 2 * a * b * qsum (fun p => p.1) pts + (pts.length : ℚ) * (b * b) := by
  induction pts with
  | nil => simp [sse, qsum]
  | cons p ps ih =>
    simp only [sse, qsum_cons, List.length_cons, Nat.cast_succ] at ih ⊢
    rw [ih]; ring

theorem sse_nonneg (a b : ℚ) (pts : List (ℚ × ℚ)) : 0 ≤ sse a b pts := by
  induction pts with
  | nil => simp [sse, qsum]
  | cons p ps ih =>
    simp only [sse, qsum_cons] at ih ⊢
    have := mul_self_nonneg (p.2 - (a * p.1 + b))
    linarith

theorem sse_eq_zero (a b : ℚ) (pts : List (ℚ × ℚ)) (h : sse a b pts = 0) :
    ∀ p ∈ pts, p.2 = a * p.1 + b := by
  induction pts with
  | nil => simp
  | cons p ps ih =>
    have h1 := sse_nonneg a b ps
    have h2 := mul_self_nonneg (p.2 - (a * p.1 + b))
    simp only [sse, qsum_cons] at h h1
    have h3 : (p.2 - (a * p.1 + b)) * (p.2 - (a * p.1 + b)) = 0 := by linarith
    have h4 : qsum (fun p => (p.2 - (a * p.1 + b)) * (p.2 - (a * p.1 + b))) ps = 0 := by linarith
    intro q hq
    rcases List.mem_cons.1 hq with rfl | hq
    · have := mul_self_eq_zero.1 h3
      linarith
    · exact ih h4 q hq

theorem sse_of_line (a b : ℚ) (pts : List (ℚ × ℚ)) (h : ∀ p ∈ pts, p.2 = a * p.1 + b) :
    sse a b pts = 0 := by
  induction pts with
  | nil => simp [sse, qsum]
  | cons p ps ih =>
    have hp := h p (List.mem_cons_self _ _)
    have := ih (fun q hq => h q (List.mem_cons_of_mem _ hq))
    simp only [sse, qsum_cons] at this ⊢
    rw [this, hp]; ring

theorem denomX_eq (pts : List (ℚ × ℚ)) (hn : pts ≠ []) :
    denomX pts = (pts.length : ℚ) *
      sse 0 (qsum (fun p => p.1) pts / (pts.length : ℚ)) (xx pts) := by
  have hn0 : (pts.length : ℚ) ≠ 0 := by
    have : pts.length ≠ 0 := by simpa using hn
    exact_mod_cast this
  have e1 : qsum (fun p => p.2 * p.2) (xx pts) = qsum (fun p => p.1 * p.1) pts := by
    simp [qsum, xx, Function.comp_def]
  have e2 : qsum (fun p => p.2) (xx pts) = qsum (fun p => p.1) pts := by
    simp [qsum, xx, Function.comp_def]
  have e3 : ((xx pts).length : ℚ) = (pts.length : ℚ) := by simp [xx]
  rw [sse_expand, e1, e2, e3, denomX]
  field_simp
  ring

theorem denomX_nonneg (pts : List (ℚ × ℚ)) : 0 ≤ denomX pts := by
  by_cases hn : pts = []
  · subst hn; simp [denomX, qsum]
  · rw [denomX_eq pts hn]
    exact mul_nonneg (Nat.cast_nonneg _) (sse_nonneg _ _ _)

theorem denomX_pos (pts : List (ℚ × ℚ)) (h : ∃ p ∈ pts, ∃ q ∈ pts, p.1 ≠ q.1) :
    0 < denomX pts := by
  obtain ⟨p, hp, q, hq, hpq⟩ := h
  have hn : pts ≠ [] := List.ne_nil_of_mem hp
  have hn0 : (0 : ℚ) < (pts.length : ℚ) := by
    have : 0 < pts.length := List.length_pos.2 hn
    exact_mod_cast this
  rcases (denomX_nonneg pts).lt_or_eq with h0 | h0
  · exact h0
  · exfalso
    rw [denomX_eq pts hn] at h0
    have hz : sse 0 (qsum (fun p => p.1) pts / (pts.length : ℚ)) (xx pts) = 0 := by
      rcases mul_eq_zero.1 h0.symm with h1 | h1
      · exact absurd h1 (ne_of_gt hn0)
      · exact h1
    have hall := sse_eq_zero _ _ _ hz
    have hp2 := hall (p.1, p.1) (List.mem_map.2 ⟨p, hp, rfl⟩)
    have hq2 := hall (q.1, q.1) (List.mem_map.2 ⟨q, hq, rfl⟩)
    simp only at hp2 hq2
    exact hpq (by linarith)


/-! ### Comparisons -/

theorem lt_false_of_ge (a b : F64) (h : F64.ge a b = true) : F64.lt a b = false := by
  cases a <;> cases b <;> simp_all [F64.ge, F64.lt]

theorem lt_trans_f64 (a b c : F64) (h1 : F64.lt a b = true) (h2 : F64.lt b c = true) :
    F64.lt a c = true := by
  cases a <;> cases b <;> cases c <;> simp_all [F64.lt]
  exact lt_trans h1 h2

theorem lt_irrefl_f64 (a : F64) : F64.lt a a = false := by
  cases a <;> simp [F64.lt]

theorem lt_ne_nan_right (a b : F64) (h : F64.lt a b = true) : b ≠ nan := by
  cases a <;> cases b <;> simp_all [F64.lt]

theorem lt_ne_nan_left (a b : F64) (h : F64.lt a b = true) : a ≠ nan := by
  cases a <;> cases b <;> simp_all [F64.lt]

/-! ### Unfolding `LinearRegression` -/

theorem calculateR2_short (l : List DataPoint) (f : F64) (h : l.length < 2) :
    calculateR2 l f = nan := by
  simp [calculateR2, h]

theorem LinearRegression_short (l : List DataPoint) (m : Int) (f : F64) (h : l.length < 2) :
    LinearRegression l m f = (nan, nan, nan, []) := by
  rw [LinearRegression]; simp [h]

theorem LinearRegression_stop (l : List DataPoint) (m : Int) (f : F64) (h : 2 ≤ l.length)
    (hs : ¬ (F64.lt (calculateR2 l f) (fin (95 / 100)) = true ∧ m > 0)) :
    LinearRegression l m f = ((doRegression l f).1, (doRegression l f).2, calculateR2 l f, []) := by
  rw [LinearRegression]
  have h2 : ¬ l.length < 2 := by omega
  simp only [h2, if_false, hs]

theorem LinearRegression_sentinel (l : List DataPoint) (m : Int) (f : F64) (h : 2 ≤ l.length)
    (hr : F64.lt (calculateR2 l f) (fin (95 / 100)) = true) (hm : m > 0)
    (hi : removeOutlier l f = -1) :
    LinearRegression l m f =
      ((doRegression l f).1, (doRegression l f).2, calculateR2 l f, [-1]) := by
  rw [LinearRegression]
  have h2 : ¬ l.length < 2 := by omega
  simp [h2, hr, hm, hi]

theorem LinearRegression_recurse (l : List DataPoint) (m : Int) (f : F64) (h : 2 ≤ l.length)
    (hr : F64.lt (calculateR2 l f) (fin (95 / 100)) = true) (hm : m > 0)
    (hi : removeOutlier l f ≠ -1) :
    LinearRegression l m f =
      ((LinearRegression (l.eraseIdx (removeOutlier l f).toNat) (m - 1) f).1,
       (LinearRegression (l.eraseIdx (removeOutlier l f).toNat) (m - 1) f).2.1,
       (LinearRegression (l.eraseIdx (removeOutlier l f).toNat) (m - 1) f).2.2.1,
       (LinearRegression (l.eraseIdx (removeOutlier l f).toNat) (m - 1) f).2.2.2
         ++ [removeOutlier l f]) := by
  rw [LinearRegression]
  have h2 : ¬ l.length < 2 := by omega
  simp [h2, hr, hm, hi]


/-! ### The candidate search -/

theorem outlier_fold (l : List DataPoint) (f : F64) (is : List Nat) (st : F64 × Int) :
    is.foldl (outlierStep l f) st = st ∨
      ∃ i ∈ is, is.foldl (outlierStep l f) st = (calculateR2 (l.eraseIdx i) f, (i : Int)) ∧
        F64.lt st.1 (calculateR2 (l.eraseIdx i) f) = true := by
  induction is generalizing st with
  | nil => exact Or.inl rfl
  | cons i is ih =>
    rw [List.foldl_cons]
    by_cases hg : F64.gt (calculateR2 (l.eraseIdx i) f) st.1 = true
    · have hstep : outlierStep l f st i = (calculateR2 (l.eraseIdx i) f, (i : Int)) := by
        simp [outlierStep, hg]
      rw [hstep]
      rcases ih (calculateR2 (l.eraseIdx i) f, (i : Int)) with h | ⟨j, hj, h, hlt⟩
      · exact Or.inr ⟨i, List.mem_cons_self _ _, h, hg⟩
      · exact Or.inr ⟨j, List.mem_cons_of_mem _ hj, h, lt_trans_f64 _ _ _ hg hlt⟩
    · have hstep : outlierStep l f st i = st := by
        simp [outlierStep, hg]
      rw [hstep]
      rcases ih st with h | ⟨j, hj, h, hlt⟩
      · exact Or.inl h
      · exact Or.inr ⟨j, List.mem_cons_of_mem _ hj, h, hlt⟩

theorem removeOutlier_cases (l : List DataPoint) (f : F64) :
    removeOutlier l f = -1 ∨
      ∃ i : Nat, removeOutlier l f = (i : Int) ∧ i < l.length ∧
        F64.lt (calculateR2 l f) (calculateR2 (l.eraseIdx i) f) = true := by
  rcases outlier_fold l f (List.range l.length) (calculateR2 l f, -1) with h | ⟨i, hi, h, hlt⟩
  · left; simp [removeOutlier, h]
  · right
    exact ⟨i, by simp [removeOutlier, h], List.mem_range.1 hi, hlt⟩

theorem removeOutlier_found (l : List DataPoint) (f : F64) (h : removeOutlier l f ≠ -1) :
    ∃ i : Nat, removeOutlier l f = (i : Int) ∧ i < l.length ∧
      2 ≤ (l.eraseIdx i).length ∧
      F64.lt (calculateR2 l f) (calculateR2 (l.eraseIdx i) f) = true := by
  rcases removeOutlier_cases l f with h1 | ⟨i, h1, h2, h3⟩
  · exact absurd h1 h
  · refine ⟨i, h1, h2, ?_, h3⟩
    by_contra hc
    have := calculateR2_short (l.eraseIdx i) f (by omega)
    exact lt_ne_nan_right _ _ h3 this

theorem removeOutlier_short (l : List DataPoint) (f : F64) (h : l.length ≤ 2) :
    removeOutlier l f = -1 := by
  by_contra hc
  obtain ⟨i, -, h2, h3, -⟩ := removeOutlier_found l f hc
  rw [List.length_eraseIdx] at h3
  split at h3 <;> omega

/-! ### An induction principle for `LinearRegression` -/

theorem LinearRegression_induct (f : F64)
    (P : List DataPoint → Int → F64 × F64 × F64 × List Int → Prop)
    (hstop : ∀ l m, 2 ≤ l.length →
      ¬ (F64.lt (calculateR2 l f) (fin (95 / 100)) = true ∧ m > 0) →
      P l m ((doRegression l f).1, (doRegression l f).2, calculateR2 l f, []))
    (hsent : ∀ l m, 2 ≤ l.length → F64.lt (calculateR2 l f) (fin (95 / 100)) = true → m > 0 →
      removeOutlier l f = -1 →
      P l m ((doRegression l f).1, (doRegression l f).2, calculateR2 l f, [-1]))
    (hrec : ∀ l m (i : Nat) r, 2 ≤ l.length → F64.lt (calculateR2 l f) (fin (95 / 100)) = true →
      m > 0 → removeOutlier l f = (i : Int) → i < l.length → 2 ≤ (l.eraseIdx i).length →
      F64.lt (calculateR2 l f) (calculateR2 (l.eraseIdx i) f) = true →
      r = LinearRegression (l.eraseIdx i) (m - 1) f →
      P (l.eraseIdx i) (m - 1) r → P l m (r.1, r.2.1, r.2.2.1, r.2.2.2 ++ [(i : Int)]))
    (l : List DataPoint) (m : Int) (hl : 2 ≤ l.length) :
    P l m (LinearRegression l m f) := by
  suffices H : ∀ n : Nat, ∀ l m, m.toNat = n → 2 ≤ l.length → P l m (LinearRegression l m f) from
    H m.toNat l m rfl hl
  intro n
  induction n using Nat.strong_induction_on with
  | _ n ih =>
    intro l m hn hl
    by_cases hs : F64.lt (calculateR2 l f) (fin (95 / 100)) = true ∧ m > 0
    · obtain ⟨hr, hm⟩ := hs
      by_cases hi : removeOutlier l f = -1
      · rw [LinearRegression_sentinel l m f hl hr hm hi]
        exact hsent l m hl hr hm hi
      · obtain ⟨i, h1, h2, h3, h4⟩ := removeOutlier_found l f hi
        rw [LinearRegression_recurse l m f hl hr hm hi, h1, Int.toNat_ofNat]
        exact hrec l m i _ hl hr hm h1 h2 h3 h4 rfl
          (ih (m - 1).toNat (by omega) (l.eraseIdx i) (m - 1) rfl h3)
    · rw [LinearRegression_stop l m f hl hs]
      exact hstop l m hl hs


theorem doRegression_snd_forced (l : List DataPoint) (b : F64) (hb : b.isNaN = false) :
    (doRegression l b).2 = b := by
  simp [doRegression, hb]

/-! ### Finite sample lists are lists of rational pairs -/

theorem ofRats_toPair (l : List DataPoint)
    (h : ∀ p ∈ l, p.X.isFinite = true ∧ p.Y.isFinite = true) : ofRats (l.map toPair) = l := by
  induction l with
  | nil => rfl
  | cons p ps ih =>
    have hp := h p (List.mem_cons_self _ _)
    have hps := ih (fun q hq => h q (List.mem_cons_of_mem _ hq))
    simp only [ofRats, List.map_cons, List.map_map] at hps ⊢
    rw [hps]
    obtain ⟨x, y⟩ := p
    cases x <;> cases y <;> simp_all [F64.isFinite, toPair, F64.toRat, pt]

theorem distinct_toPair (l : List DataPoint)
    (h : ∀ p ∈ l, p.X.isFinite = true)
    (hx : ∃ p ∈ l, ∃ q ∈ l, p.X ≠ q.X) :
    ∃ p ∈ l.map toPair, ∃ q ∈ l.map toPair, p.1 ≠ q.1 := by
  obtain ⟨p, hp, q, hq, hpq⟩ := hx
  refine ⟨toPair p, List.mem_map.2 ⟨p, hp, rfl⟩, toPair q, List.mem_map.2 ⟨q, hq, rfl⟩, ?_⟩
  have h1 := h p hp
  have h2 := h q hq
  obtain ⟨x, y⟩ := p
  obtain ⟨x2, y2⟩ := q
  cases x <;> cases x2 <;> simp_all [F64.isFinite, toPair, F64.toRat]

/-! ### Least squares -/

theorem quadratic_gap (n Sx Sy Sxx Sxy Syy D A B a b : ℚ) (hn : 0 < n)
    (hD : 0 ≤ D) (hDdef : D = n * Sxx - Sx * Sx)
    (hA : A * D = n * Sxy - Sx * Sy) (hB : B * n = Sy - A * Sx) :
    Syy - 2 * A * Sxy - 2 * B * Sy + A * A * Sxx + 2 * A * B * Sx + n * (B * B) ≤
      Syy - 2 * a * Sxy - 2 * b * Sy + a * a * Sxx + 2 * a * b * Sx + n * (b * b) := by
  have key : n * ((Syy - 2 * a * Sxy - 2 * b * Sy + a * a * Sxx + 2 * a * b * Sx + n * (b * b))
      - (Syy - 2 * A * Sxy - 2 * B * Sy + A * A * Sxx + 2 * A * B * Sx + n * (B * B)))
      = (n * (b - B) + Sx * (a - A)) ^ 2 + D * (a - A) ^ 2 := by
    subst hDdef
    linear_combination (2 * (a - A)) * hA + (2 * (a - A) * Sx + 2 * (b - B) * n) * hB
  have h1 : 0 ≤ (n * (b - B) + Sx * (a - A)) ^ 2 + D * (a - A) ^ 2 :=
    add_nonneg (sq_nonneg _) (mul_nonneg hD (sq_nonneg _))
  rw [← key] at h1
  have := nonneg_of_mul_nonneg_right h1 hn
  linarith

theorem sse_minimal (pts : List (ℚ × ℚ)) (hD : 0 < denomX pts) (hn : pts ≠ []) (a b : ℚ) :
    sse (slopeQ pts) (interceptQ pts) pts ≤ sse a b pts := by
  have hn0 : (0 : ℚ) < (pts.length : ℚ) := by
    have : 0 < pts.length := List.length_pos.2 hn
    exact_mod_cast this
  rw [sse_expand, sse_expand]
  apply quadratic_gap (pts.length : ℚ) (qsum (fun p => p.1) pts) (qsum (fun p => p.2) pts)
    (qsum (fun p => p.1 * p.1) pts) (qsum (fun p => p.1 * p.2) pts)
    (qsum (fun p => p.2 * p.2) pts) (denomX pts) (slopeQ pts) (interceptQ pts) a b hn0
    (le_of_lt hD) rfl
  · rw [slopeQ, div_mul_cancel₀ _ (ne_of_gt hD)]
  · rw [interceptQ, div_mul_cancel₀ _ (ne_of_gt hn0)]

/-! ### Samples on a line -/

theorem line_sums (a b : ℚ) (pts : List (ℚ × ℚ)) (h : ∀ p ∈ pts, p.2 = a * p.1 + b) :
    qsum (fun p => p.2) pts = a * qsum (fun p => p.1) pts + (pts.length : ℚ) * b ∧
    qsum (fun p => p.1 * p.2) pts
      = a * qsum (fun p => p.1 * p.1) pts + b * qsum (fun p => p.1) pts ∧
    qsum (fun p => p.2 * p.2) pts
      = a * a * qsum (fun p => p.1 * p.1) pts + 2 * a * b * qsum (fun p => p.1) pts
        + (pts.length : ℚ) * (b * b) := by
  induction pts with
  | nil => simp [qsum]
  | cons p ps ih =>
    have hp := h p (List.mem_cons_self _ _)
    obtain ⟨h1, h2, h3⟩ := ih (fun q hq => h q (List.mem_cons_of_mem _ hq))
    simp only [qsum_cons, List.length_cons, Nat.cast_succ]
    rw [h1, h2, h3, hp]
    refine ⟨by ring, by ring, by ring⟩

theorem line_fit (a b : ℚ) (ha : a ≠ 0) (pts : List (ℚ × ℚ))
    (h : ∀ p ∈ pts, p.2 = a * p.1 + b) (hD : 0 < denomX pts) (hn : pts ≠ []) :
    slopeQ pts = a ∧ interceptQ pts = b ∧ sstQ pts ≠ 0 := by
  have hn0 : (0 : ℚ) < (pts.length : ℚ) := by
    have : 0 < pts.length := List.length_pos.2 hn
    exact_mod_cast this
  obtain ⟨h1, h2, h3⟩ := line_sums a b pts h
  have hs : slopeQ pts = a := by
    rw [slopeQ, div_eq_iff (ne_of_gt hD), h1, h2, denomX]; ring
  have hi : interceptQ pts = b := by
    rw [interceptQ, hs, div_eq_iff (ne_of_gt hn0), h1]; ring
  refine ⟨hs, hi, ?_⟩
  have e : sstQ pts * (pts.length : ℚ) = a * a * denomX pts := by
    rw [sstQ, h1, h3, denomX]
    field_simp
    ring
  intro h0
  rw [h0, zero_mul] at e
  have : a * a * denomX pts ≠ 0 := mul_ne_zero (mul_ne_zero ha ha) (ne_of_gt hD)
  exact this e.symm

/-! ### The explicit-state model returns the values of the pure model -/

theorem appendInPlace_take (mem : List DataPoint) (len i : Nat) (hi : i < len)
    (hlen : len ≤ mem.length) :
    (appendInPlace mem i ((mem.take len).drop (i + 1))).take
        (i + ((mem.take len).drop (i + 1)).length) = (mem.take len).eraseIdx i := by
  have h1 : (mem.take i).length = i := by rw [List.length_take]; omega
  rw [appendInPlace, List.append_assoc, List.take_append_eq_append_take, h1]
  rw [List.take_of_length_le (by rw [h1]; omega)]
  rw [show i + ((mem.take len).drop (i + 1)).length - i
    = ((mem.take len).drop (i + 1)).length by omega]
  rw [List.take_append_eq_append_take, List.take_of_length_le (le_refl _)]
  simp only [Nat.sub_self, List.take_zero, List.append_nil]
  rw [List.eraseIdx_eq_take_drop_succ, List.take_take]
  congr 2
  omega

theorem appendInPlace_length (mem : List DataPoint) (len i : Nat) (hi : i < len)
    (hlen : len ≤ mem.length) :
    (appendInPlace mem i ((mem.take len).drop (i + 1))).length = mem.length := by
  simp only [appendInPlace, List.length_append, List.length_take, List.length_drop]
  omega

theorem LinearRegressionMem_fst (f : F64) (n : Nat) :
    ∀ (mem : List DataPoint) (len : Nat) (m : Int), m.toNat = n → len ≤ mem.length →
      (LinearRegressionMem mem len m f).1 = LinearRegression (mem.take len) m f := by
  induction n using Nat.strong_induction_on with
  | _ n ih =>
    intro mem len m hn hlen
    have hl : (mem.take len).length = len := by rw [List.length_take]; omega
    by_cases h2 : 2 ≤ (mem.take len).length
    · have h2n : ¬ (mem.take len).length < 2 := by omega
      by_cases hs : F64.lt (calculateR2 (mem.take len) f) (fin (95 / 100)) = true ∧ m > 0
      · obtain ⟨hr, hm⟩ := hs
        by_cases hi : removeOutlier (mem.take len) f = -1
        · rw [LinearRegression_sentinel _ m f h2 hr hm hi, LinearRegressionMem]
          simp only [h2n, if_false, hr, hm, and_self, if_true, hi, ne_eq, not_true_eq_false]
        · obtain ⟨i, h1, hlt, -, -⟩ := removeOutlier_found _ f hi
          rw [hl] at hlt
          have hrec := ih (m - 1).toNat (by omega)
            (appendInPlace mem i ((mem.take len).drop (i + 1)))
            (i + ((mem.take len).drop (i + 1)).length) (m - 1) rfl
            (by rw [appendInPlace_length mem len i hlt hlen, List.length_drop, hl]; omega)
          rw [appendInPlace_take mem len i hlt hlen] at hrec
          rw [LinearRegression_recurse _ m f h2 hr hm hi, LinearRegressionMem]
          simp only [h2n, if_false, hr, hm, and_self, if_true, hi, ne_eq, not_false_eq_true]
          rw [h1, Int.toNat_ofNat, ← hrec]
      · rw [LinearRegression_stop _ m f h2 hs, LinearRegressionMem]
        simp only [h2n, if_false, hs]
    · rw [LinearRegression_short _ m f (by omega), LinearRegressionMem]
      simp only [show (mem.take len).length < 2 by omega, if_true]

/-! ### Comparisons, reports and replays -/

theorem ge_refl_f64 (a : F64) (h : a ≠ nan) : F64.ge a a = true := by
  cases a <;> simp_all [F64.ge]

theorem ge_of_lt (a b : F64) (h : F64.lt a b = true) : F64.ge b a = true := by
  cases a <;> cases b <;> simp_all [F64.ge, F64.lt]
  exact le_of_lt h

theorem lt_of_lt_of_ge (a b c : F64) (h1 : F64.lt a b = true) (h2 : F64.ge c b = true) :
    F64.lt a c = true := by
  cases a <;> cases b <;> cases c <;> simp_all [F64.ge, F64.lt]
  exact lt_of_lt_of_le h1 h2

theorem removedCount_nil : removedCount [] = 0 := rfl

theorem removedCount_sentinel : removedCount [-1] = 0 := by decide

theorem removedCount_snoc (r : List Int) (i : Nat) :
    removedCount (r ++ [(i : Int)]) = removedCount r + 1 := by
  simp [removedCount, List.filter_append]

theorem replay_nil (l : List DataPoint) : replay l [] = l := rfl

theorem replay_sentinel (l : List DataPoint) : replay l [-1] = l := by
  simp [replay, replayStep]

theorem replay_snoc (l : List DataPoint) (r : List Int) (i : Nat) :
    replay l (r ++ [(i : Int)]) = replay (l.eraseIdx i) r := by
  have h : ((i : Int) = -1) = False := by
    apply eq_false
    omega
  simp [replay, replayStep, h]

theorem replayStep_length_le (cur : List DataPoint) (i : Int) :
    (replayStep cur i).length ≤ cur.length := by
  unfold replayStep
  split
  · exact le_refl _
  · exact List.length_eraseIdx_le _ _

theorem foldl_replayStep_length_le (xs : List Int) (cur : List DataPoint) :
    (xs.foldl replayStep cur).length ≤ cur.length := by
  induction xs generalizing cur with
  | nil => exact le_refl _
  | cons x xs ih =>
    rw [List.foldl_cons]
    exact le_trans (ih _) (replayStep_length_le cur x)

theorem replay_drop_length (l : List DataPoint) (r : List Int) (k : Nat) :
    (replay l r).length ≤ (replay l (r.drop k)).length := by
  have h : r.reverse = (r.drop k).reverse ++ (r.take k).reverse := by
    rw [← List.reverse_append, List.take_append_drop]
  unfold replay
  rw [h, List.foldl_append]
  exact foldl_replayStep_length_le _ _

theorem replay_length (l : List DataPoint) (f : F64) (m : Int) (hlen : 2 ≤ l.length) :
    2 ≤ (replay l (LinearRegression l m f).2.2.2).length ∧
      (replay l (LinearRegression l m f).2.2.2).length
        + removedCount (LinearRegression l m f).2.2.2 = l.length := by
  refine LinearRegression_induct f
    (fun l _ r => 2 ≤ (replay l r.2.2.2).length ∧
      (replay l r.2.2.2).length + removedCount r.2.2.2 = l.length) ?_ ?_ ?_ l m hlen
  · intro l m h _
    exact ⟨h, rfl⟩
  · intro l m h _ _ _
    simp only [replay_sentinel, removedCount_sentinel]
    exact ⟨h, rfl⟩
  · intro l m i r _ _ _ _ hi _ _ _ ih
    simp only [replay_snoc, removedCount_snoc]
    refine ⟨ih.1, ?_⟩
    have := ih.2
    rw [List.length_eraseIdx, if_pos hi] at this
    omega

/-! ### The loop of `removeOutlier` -/

theorem ge_of_not_lt (a b : F64) (ha : a ≠ nan) (hb : b ≠ nan) (h : F64.lt a b = false) :
    F64.ge a b = true := by
  cases a <;> cases b <;> simp_all [F64.ge, F64.lt]

theorem lt_of_ge_of_lt (a b c : F64) (h1 : F64.ge b a = true) (h2 : F64.lt b c = true) :
    F64.lt a c = true := by
  cases a <;> cases b <;> cases c <;> simp_all [F64.ge, F64.lt]
  exact lt_of_le_of_lt h1 h2

theorem outlierStep_eq (l : List DataPoint) (f : F64) (st : F64 × Int) (i : Nat) :
    outlierStep l f st i =
      if F64.lt st.1 (trialR2 l f i) = true then (trialR2 l f i, (i : Int)) else st := rfl

/-- The state of the loop of `removeOutlier` after the positions below `n`. -/
theorem search_invariant (l : List DataPoint) (f : F64) (hb : calculateR2 l f ≠ nan) (n : Nat) :
    ((List.range n).foldl (outlierStep l f) (calculateR2 l f, -1) = (calculateR2 l f, -1) ∧
        ∀ j < n, F64.lt (calculateR2 l f) (trialR2 l f j) = false) ∨
      ∃ i < n, (List.range n).foldl (outlierStep l f) (calculateR2 l f, -1)
          = (trialR2 l f i, (i : Int)) ∧
        F64.lt (calculateR2 l f) (trialR2 l f i) = true ∧
        (∀ j < n, F64.lt (trialR2 l f i) (trialR2 l f j) = false) ∧
        ∀ j < i, trialR2 l f j = nan ∨ F64.lt (trialR2 l f j) (trialR2 l f i) = true := by
  induction n with
  | zero =>
    left
    exact ⟨rfl, fun j hj => absurd hj (Nat.not_lt_zero j)⟩
  | succ n ih =>
    rw [List.range_succ, List.foldl_append, List.foldl_cons, List.foldl_nil]
    rcases ih with ⟨hst, hall⟩ | ⟨i, hi, hst, hlt, hmax, hlow⟩
    · rw [hst, outlierStep_eq]
      by_cases hg : F64.lt (calculateR2 l f) (trialR2 l f n) = true
      · right
        refine ⟨n, Nat.lt_succ_self n, by simp [hg], hg, ?_, ?_⟩
        · intro j hj
          rcases Nat.lt_succ_iff_lt_or_eq.1 hj with hj | rfl
          · by_contra hc
            have hc2 : F64.lt (trialR2 l f n) (trialR2 l f j) = true := by simpa using hc
            have := lt_trans_f64 _ _ _ hg hc2
            rw [hall j hj] at this
            exact Bool.false_ne_true this
          · exact lt_irrefl_f64 _
        · intro j hj
          by_cases hn : trialR2 l f j = nan
          · exact Or.inl hn
          · right
            exact lt_of_ge_of_lt _ _ _ (ge_of_not_lt _ _ hb hn (hall j hj)) hg
      · left
        refine ⟨by simp [hg], ?_⟩
        intro j hj
        rcases Nat.lt_succ_iff_lt_or_eq.1 hj with hj | rfl
        · exact hall j hj
        · simpa using hg
    · rw [hst, outlierStep_eq]
      have hti : trialR2 l f i ≠ nan := lt_ne_nan_right _ _ hlt
      by_cases hg : F64.lt (trialR2 l f i) (trialR2 l f n) = true
      · right
        refine ⟨n, Nat.lt_succ_self n, by simp [hg], lt_trans_f64 _ _ _ hlt hg, ?_, ?_⟩
        · intro j hj
          rcases Nat.lt_succ_iff_lt_or_eq.1 hj with hj | rfl
          · by_contra hc
            have hc2 : F64.lt (trialR2 l f n) (trialR2 l f j) = true := by simpa using hc
            have := lt_trans_f64 _ _ _ hg hc2
            rw [hmax j hj] at this
            exact Bool.false_ne_true this
          · exact lt_irrefl_f64 _
        · intro j hj
          by_cases hn : trialR2 l f j = nan
          · exact Or.inl hn
          · right
            exact lt_of_ge_of_lt _ _ _ (ge_of_not_lt _ _ hti hn (hmax j hj)) hg
      · right
        refine ⟨i, Nat.lt_succ_of_lt hi, by simp [hg], hlt, ?_, hlow⟩
        intro j hj
        rcases Nat.lt_succ_iff_lt_or_eq.1 hj with hj | rfl
        · exact hmax j hj
        · simpa using hg

/-! ### The divisor of R² and the fit with a forced intercept -/

theorem sstQ_eq_sse (pts : List (ℚ × ℚ)) (hn : pts ≠ []) :
    sstQ pts = sse 0 (qsum (fun p => p.2) pts / (pts.length : ℚ)) pts := by
  have hn0 : (pts.length : ℚ) ≠ 0 := by
    have : pts.length ≠ 0 := by simpa using hn
    exact_mod_cast this
  rw [sse_expand, sstQ]
  field_simp
  ring

theorem sstQ_nonneg (pts : List (ℚ × ℚ)) : 0 ≤ sstQ pts := by
  by_cases hn : pts = []
  · subst hn; simp [sstQ, qsum]
  · rw [sstQ_eq_sse pts hn]
    exact sse_nonneg _ _ _

theorem sstQ_pos (pts : List (ℚ × ℚ)) (h : ∃ p ∈ pts, ∃ q ∈ pts, p.2 ≠ q.2) :
    0 < sstQ pts := by
  obtain ⟨p, hp, q, hq, hpq⟩ := h
  have hn : pts ≠ [] := List.ne_nil_of_mem hp
  rcases (sstQ_nonneg pts).lt_or_eq with h0 | h0
  · exact h0
  · exfalso
    rw [sstQ_eq_sse pts hn] at h0
    have hall := sse_eq_zero _ _ _ h0.symm
    have hp2 := hall p hp
    have hq2 := hall q hq
    exact hpq (by linarith)

theorem distinctY_toPair (l : List DataPoint)
    (h : ∀ p ∈ l, p.Y.isFinite = true)
    (hy : ∃ p ∈ l, ∃ q ∈ l, p.Y ≠ q.Y) :
    ∃ p ∈ l.map toPair, ∃ q ∈ l.map toPair, p.2 ≠ q.2 := by
  obtain ⟨p, hp, q, hq, hpq⟩ := hy
  refine ⟨toPair p, List.mem_map.2 ⟨p, hp, rfl⟩, toPair q, List.mem_map.2 ⟨q, hq, rfl⟩, ?_⟩
  have h1 := h p hp
  have h2 := h q hq
  obtain ⟨x, y⟩ := p
  obtain ⟨x2, y2⟩ := q
  cases y <;> cases y2 <;> simp_all [F64.isFinite, toPair, F64.toRat]

theorem totalSS_eq (l : List DataPoint) (hn : l ≠ []) : totalSS l = sstQ (l.map toPair) := by
  have hne : l.map toPair ≠ [] := by simpa using hn
  rw [sstQ_eq_sse _ hne]
  simp only [totalSS, meanY, sse, qsum, List.map_map, List.length_map, Function.comp_def, toPair,
    zero_mul, zero_add]

theorem map_toPair_ne_nil (l : List DataPoint) (hlen : 2 ≤ l.length) : l.map toPair ≠ [] := by
  intro h0
  have : (l.map toPair).length = 0 := by rw [h0]; rfl
  rw [List.length_map] at this
  omega

theorem qsum_sq_nonneg (pts : List (ℚ × ℚ)) : 0 ≤ qsum (fun p => p.1 * p.1) pts := by
  induction pts with
  | nil => simp [qsum]
  | cons p ps ih =>
    rw [qsum_cons]
    exact add_nonneg (mul_self_nonneg _) ih

theorem sse_minimal_forced (pts : List (ℚ × ℚ)) (b a1 : ℚ)
    (h : qsum (fun p => p.1 * p.1) pts ≠ 0) :
    sse ((qsum (fun p => p.1 * p.2) pts - b * qsum (fun p => p.1) pts)
        / qsum (fun p => p.1 * p.1) pts) b pts ≤ sse a1 b pts := by
  have hA : (qsum (fun p => p.1 * p.2) pts - b * qsum (fun p => p.1) pts)
      / qsum (fun p => p.1 * p.1) pts * qsum (fun p => p.1 * p.1) pts
      = qsum (fun p => p.1 * p.2) pts - b * qsum (fun p => p.1) pts :=
    div_mul_cancel₀ _ h
  generalize (qsum (fun p => p.1 * p.2) pts - b * qsum (fun p => p.1) pts)
      / qsum (fun p => p.1 * p.1) pts = A at hA ⊢
  rw [sse_expand, sse_expand]
  have hs := qsum_sq_nonneg pts
  have key : (qsum (fun p => p.2 * p.2) pts - 2 * a1 * qsum (fun p => p.1 * p.2) pts
        - 2 * b * qsum (fun p => p.2) pts + a1 * a1 * qsum (fun p => p.1 * p.1) pts
        + 2 * a1 * b * qsum (fun p => p.1) pts + (pts.length : ℚ) * (b * b))
      - (qsum (fun p => p.2 * p.2) pts - 2 * A * qsum (fun p => p.1 * p.2) pts
        - 2 * b * qsum (fun p => p.2) pts + A * A * qsum (fun p => p.1 * p.1) pts
        + 2 * A * b * qsum (fun p => p.1) pts + (pts.length : ℚ) * (b * b))
      = qsum (fun p => p.1 * p.1) pts * (a1 - A) ^ 2 := by
    linear_combination (2 * (a1 - A)) * hA
  have := mul_nonneg hs (sq_nonneg (a1 - A))
  linarith

/-! ### R² is never above 1 -/

theorem add_def (a b : F64) : a + b = F64.add a b := rfl
theorem sub_def (a b : F64) : a - b = F64.add a (F64.neg b) := rfl
theorem mul_def (a b : F64) : a * b = F64.mul a b := rfl
theorem div_def (a b : F64) : a / b = F64.div a b := rfl

theorem mul_self_notNegative (x : F64) : (x * x).notNegative = true := by
  cases x <;> simp [mul_def, F64.mul, F64.notNegative, mul_self_nonneg]

theorem add_notNegative (a b : F64) (ha : a.notNegative = true) (hb : b.notNegative = true) :
    (a + b).notNegative = true := by
  cases a <;> cases b <;> simp_all [add_def, F64.add, F64.notNegative]
  exact add_nonneg ha hb

theorem foldl_diffStep_notNegative (A B : F64) (l : List DataPoint) (acc : F64)
    (h : acc.notNegative = true) : (l.foldl (diffStep A B) acc).notNegative = true := by
  induction l generalizing acc with
  | nil => exact h
  | cons p ps ih =>
    rw [List.foldl_cons]
    exact ih _ (add_notNegative _ _ h (mul_self_notNegative _))

theorem foldl_yStep_notNegative (l : List DataPoint) (s : YSums)
    (h : s.sumYSquared.notNegative = true) :
    (l.foldl yStep s).sumYSquared.notNegative = true := by
  induction l generalizing s with
  | nil => exact h
  | cons p ps ih =>
    rw [List.foldl_cons]
    exact ih _ (add_notNegative _ _ h (mul_self_notNegative _))

theorem isFinite_of_add (a b : F64) (h : (a + b).isFinite = true) :
    a.isFinite = true ∧ b.isFinite = true := by
  cases a <;> cases b <;> simp_all [add_def, F64.add, F64.isFinite]

theorem isFinite_of_mul_self (a : F64) (h : (a * a).isFinite = true) : a.isFinite = true := by
  cases a <;> simp_all [mul_def, F64.mul, F64.isFinite]

theorem foldl_yStep_sumY_finite (l : List DataPoint) (s : YSums)
    (h : (l.foldl yStep s).sumY.isFinite = true) : ∀ p ∈ l, p.Y.isFinite = true := by
  induction l generalizing s with
  | nil => simp
  | cons p ps ih =>
    rw [List.foldl_cons] at h
    have hacc : ∀ (qs : List DataPoint) (t : YSums),
        (qs.foldl yStep t).sumY.isFinite = true → t.sumY.isFinite = true := by
      intro qs
      induction qs with
      | nil => intro t ht; exact ht
      | cons q qs ihq =>
        intro t ht
        rw [List.foldl_cons] at ht
        exact (isFinite_of_add _ _ (ihq _ ht)).1
    intro q hq
    rcases List.mem_cons.1 hq with rfl | hq
    · exact (isFinite_of_add _ _ (hacc ps _ h)).2
    · exact ih _ h q hq

theorem foldl_yStep_sumYSquared_finite (l : List DataPoint) (s : YSums)
    (h : (l.foldl yStep s).sumYSquared.isFinite = true) : ∀ p ∈ l, p.Y.isFinite = true := by
  induction l generalizing s with
  | nil => simp
  | cons p ps ih =>
    rw [List.foldl_cons] at h
    have hacc : ∀ (qs : List DataPoint) (t : YSums),
        (qs.foldl yStep t).sumYSquared.isFinite = true → t.sumYSquared.isFinite = true := by
      intro qs
      induction qs with
      | nil => intro t ht; exact ht
      | cons q qs ihq =>
        intro t ht
        rw [List.foldl_cons] at ht
        exact (isFinite_of_add _ _ (ihq _ ht)).1
    intro q hq
    rcases List.mem_cons.1 hq with rfl | hq
    · exact isFinite_of_mul_self _ (isFinite_of_add _ _ (hacc ps _ h)).2
    · exact ih _ h q hq

theorem foldl_yStep_finiteY (l : List DataPoint) (a b : ℚ)
    (h : ∀ p ∈ l, p.Y.isFinite = true) :
    l.foldl yStep ⟨fin a, fin b⟩ =
      ⟨fin (a + qsum (fun p => p.2) (l.map toPair)),
       fin (b + qsum (fun p => p.2 * p.2) (l.map toPair))⟩ := by
  induction l generalizing a b with
  | nil => simp [qsum]
  | cons p ps ih =>
    have hp := h p (List.mem_cons_self _ _)
    have hps := ih (a + p.Y.toRat) (b + p.Y.toRat * p.Y.toRat)
      (fun q hq => h q (List.mem_cons_of_mem _ hq))
    obtain ⟨x, y⟩ := p
    cases y <;> simp_all [F64.isFinite, F64.toRat, yStep, fin_add, fin_mul, qsum_cons, toPair,
      add_assoc]

/-- The divisor of R² is NaN or a rational that is not negative. -/
theorem sst_shape (l : List DataPoint) (hl : l ≠ []) :
    (l.foldl yStep ⟨fin 0, fin 0⟩).sumYSquared
        - ((l.foldl yStep ⟨fin 0, fin 0⟩).sumY * (l.foldl yStep ⟨fin 0, fin 0⟩).sumY)
          / fin (l.length : ℚ) = nan ∨
      ∃ q : ℚ, 0 ≤ q ∧
        (l.foldl yStep ⟨fin 0, fin 0⟩).sumYSquared
          - ((l.foldl yStep ⟨fin 0, fin 0⟩).sumY * (l.foldl yStep ⟨fin 0, fin 0⟩).sumY)
            / fin (l.length : ℚ) = fin q := by
  have hn0 : (l.length : ℚ) ≠ 0 := by
    have : l.length ≠ 0 := by simpa using hl
    exact_mod_cast this
  by_cases hfin : ∀ p ∈ l, p.Y.isFinite = true
  · right
    refine ⟨sstQ (l.map toPair), sstQ_nonneg _, ?_⟩
    rw [foldl_yStep_finiteY l 0 0 hfin]
    simp only [zero_add, fin_mul]
    rw [fin_div _ _ hn0, fin_sub, sstQ, List.length_map]
  · left
    have h1 : (l.foldl yStep ⟨fin 0, fin 0⟩).sumY.isFinite = false := by
      by_contra hc
      exact hfin (foldl_yStep_sumY_finite l _ (by simpa using hc))
    have h2 : (l.foldl yStep ⟨fin 0, fin 0⟩).sumYSquared.isFinite = false := by
      by_contra hc
      exact hfin (foldl_yStep_sumYSquared_finite l _ (by simpa using hc))
    have h3 := foldl_yStep_notNegative l ⟨fin 0, fin 0⟩ (by simp [F64.notNegative])
    have hpos : (0 : ℚ) < (l.length : ℚ) := by
      have : 0 < l.length := List.length_pos.2 hl
      exact_mod_cast this
    generalize (l.foldl yStep ⟨fin 0, fin 0⟩).sumY = sy at h1
    generalize (l.foldl yStep ⟨fin 0, fin 0⟩).sumYSquared = syy at h2 h3
    generalize (l.length : ℚ) = n at hpos
    have hnn : ¬ n < 0 := not_lt.2 (le_of_lt hpos)
    cases sy <;> cases syy <;>
      simp_all [F64.isFinite, F64.notNegative, sub_def, mul_def, div_def, F64.add, F64.neg,
        F64.mul, F64.div, F64.infOf]
    all_goals simp [not_lt.2 (le_of_lt hpos)]

theorem div_notNegative (a b : F64) (ha : a.notNegative = true)
    (hb : b = nan ∨ ∃ q : ℚ, 0 ≤ q ∧ b = fin q) : (a / b).notNegative = true := by
  rcases hb with rfl | ⟨q, hq, rfl⟩
  · cases a <;> simp [div_def, F64.div, F64.notNegative]
  · cases a with
    | nan => simp [div_def, F64.div, F64.notNegative]
    | pinf => simp [div_def, F64.div, F64.notNegative, F64.infOf, not_lt.2 hq]
    | ninf => simp [F64.notNegative] at ha
    | fin a =>
      have ha2 : 0 ≤ a := by simpa [F64.notNegative] using ha
      by_cases h0 : q = 0
      · by_cases h1 : a = 0
        · simp [div_def, F64.div, F64.notNegative, h0, h1]
        · simp [div_def, F64.div, F64.notNegative, h0, h1, F64.infOf, not_lt.2 ha2]
      · simp [div_def, F64.div, F64.notNegative, h0]
        exact div_nonneg ha2 hq

theorem one_sub_notNegative (q : F64) (h : q.notNegative = true) :
    F64.gt (fin 1 - q) (fin 1) = false := by
  cases q <;> simp_all [F64.gt, F64.lt, sub_def, F64.add, F64.neg, F64.notNegative]

theorem calculateR2_le_one (l : List DataPoint) (f : F64) :
    F64.gt (calculateR2 l f) (fin 1) = false := by
  by_cases hlen : l.length < 2
  · rw [calculateR2_short l f hlen]
    rfl
  · have hl : l ≠ [] := by
      intro h0; rw [h0] at hlen; simp at hlen
    simp only [calculateR2, hlen, if_false]
    exact one_sub_notNegative _
      (div_notNegative _ _ (foldl_diffStep_notNegative _ _ l (fin 0) (by simp [F64.notNegative]))
        (sst_shape l hl))

theorem LinearRegression_r2_le_one (l : List DataPoint) (m : Int) (f : F64) :
    F64.gt (LinearRegression l m f).2.2.1 (fin 1) = false := by
  by_cases hlen : 2 ≤ l.length
  · refine LinearRegression_induct f (fun _ _ r => F64.gt r.2.2.1 (fin 1) = false)
      ?_ ?_ ?_ l m hlen
    · intro l m _ _
      exact calculateR2_le_one l f
    · intro l m _ _ _ _
      exact calculateR2_le_one l f
    · intro l m i r _ _ _ _ _ _ _ _ ih
      exact ih
  · rw [LinearRegression_short l m f (by omega)]
    rfl

/-! ### R² without forced intercept is NaN or a fraction -/

theorem add_nan (a : F64) : a + nan = nan := by
  cases a <;> rfl

theorem nan_div (a : F64) : nan / a = nan := by
  cases a <;> rfl

theorem foldl_diffStep_nan (l : List DataPoint) (acc : F64) (hl : l ≠ []) :
    l.foldl (diffStep nan nan) acc = nan := by
  have hstep : ∀ (a : F64) (p : DataPoint), diffStep nan nan a p = nan := by
    intro a p
    have h1 : p.Y - (nan * p.X + nan) = nan := by
      rw [sub_def]
      have : (nan : F64) * p.X + nan = nan := add_nan _
      rw [this]
      exact add_nan _
    simp only [diffStep, h1]
    exact add_nan _
  have hkeep : ∀ qs : List DataPoint, qs.foldl (diffStep nan nan) nan = nan := by
    intro qs
    induction qs with
    | nil => rfl
    | cons q qs ih => rw [List.foldl_cons, hstep]; exact ih
  cases l with
  | nil => exact absurd rfl hl
  | cons p ps => rw [List.foldl_cons, hstep]; exact hkeep ps

theorem calculateR2_of_nan_fit (l : List DataPoint) (f : F64) (hlen : 2 ≤ l.length)
    (h : doRegression l f = (nan, nan)) : calculateR2 l f = nan := by
  have hl : l ≠ [] := by
    intro h0; rw [h0] at hlen; simp at hlen
  have h2 : ¬ l.length < 2 := by omega
  simp only [calculateR2, h2, if_false, h, foldl_diffStep_nan l _ hl]
  rw [nan_div]
  rfl

theorem constX_sums (c : ℚ) (pts : List (ℚ × ℚ)) (h : ∀ p ∈ pts, p.1 = c) :
    qsum (fun p => p.1) pts = (pts.length : ℚ) * c ∧
      qsum (fun p => p.1 * p.2) pts = c * qsum (fun p => p.2) pts := by
  induction pts with
  | nil => simp [qsum]
  | cons p ps ih =>
    have hp := h p (List.mem_cons_self _ _)
    obtain ⟨h1, h2⟩ := ih (fun q hq => h q (List.mem_cons_of_mem _ hq))
    simp only [qsum_cons, List.length_cons, Nat.cast_succ]
    rw [h1, h2, hp]
    exact ⟨by ring, by ring⟩

theorem constX_of_denomX_zero (pts : List (ℚ × ℚ)) (hn : pts ≠ []) (hD : denomX pts = 0) :
    ∀ p ∈ pts, p.1 = qsum (fun p => p.1) pts / (pts.length : ℚ) := by
  have hn0 : (pts.length : ℚ) ≠ 0 := by
    have : pts.length ≠ 0 := by simpa using hn
    exact_mod_cast this
  rw [denomX_eq pts hn] at hD
  have hz : sse 0 (qsum (fun p => p.1) pts / (pts.length : ℚ)) (xx pts) = 0 := by
    rcases mul_eq_zero.1 hD with h1 | h1
    · exact absurd h1 hn0
    · exact h1
  intro p hp
  have := sse_eq_zero _ _ _ hz (p.1, p.1) (List.mem_map.2 ⟨p, hp, rfl⟩)
  simp only at this
  linarith

theorem doRegression_free_degenerate (pts : List (ℚ × ℚ)) (hn : pts ≠ [])
    (hD : denomX pts = 0) : doRegression (ofRats pts) nan = (nan, nan) := by
  obtain ⟨h1, h2⟩ := constX_sums _ pts (constX_of_denomX_zero pts hn hD)
  have hD2 : (pts.length : ℚ) * qsum (fun p => p.1 * p.1) pts
      - qsum (fun p => p.1) pts * qsum (fun p => p.1) pts = 0 := hD
  have hnum : (pts.length : ℚ) * qsum (fun p => p.1 * p.2) pts
      - qsum (fun p => p.1) pts * qsum (fun p => p.2) pts = 0 := by
    rw [h2]
    nth_rewrite 2 [h1]
    ring
  simp only [doRegression, foldl_regStep, length_ofRats, F64.isNaN, if_true, fin_mul, fin_sub,
    zero_add, hD2, hnum]
  rfl

theorem calculateR2_fin_raw (pts : List (ℚ × ℚ)) (f : F64) (A B : ℚ) (hlen : 2 ≤ pts.length)
    (hreg : doRegression (ofRats pts) f = (fin A, fin B)) :
    calculateR2 (ofRats pts) f = fin 1 - fin (sse A B pts) / fin (sstQ pts) := by
  have hn0 : (pts.length : ℚ) ≠ 0 := by
    have : pts.length ≠ 0 := by omega
    exact_mod_cast this
  have hl : ¬ (ofRats pts).length < 2 := by rw [length_ofRats]; omega
  simp only [calculateR2, hl, if_false, hreg, foldl_yStep, foldl_diffStep, length_ofRats, fin_mul,
    zero_add]
  rw [fin_div _ _ hn0, fin_sub, if_neg (by omega)]
  rfl

theorem free_r2_core (pts : List (ℚ × ℚ)) (hlen : 2 ≤ pts.length) (hD : 0 < denomX pts)
    (hsst : 0 < sstQ pts) :
    ∃ r : ℚ, calculateR2 (ofRats pts) nan = fin r ∧ 0 ≤ r ∧ r ≤ 1 := by
  have hne : pts ≠ [] := by
    intro h0; rw [h0] at hlen; simp at hlen
  have hreg := doRegression_free _ (ne_of_gt hD) hne
  have hr2 := calculateR2_fin pts nan _ _ hlen hreg (ne_of_gt hsst)
  refine ⟨_, hr2, ?_, ?_⟩
  · have hmin := sse_minimal _ hD hne 0 (qsum (fun p => p.2) pts / (pts.length : ℚ))
    rw [← sstQ_eq_sse _ hne] at hmin
    have : sse (slopeQ pts) (interceptQ pts) pts / sstQ pts ≤ 1 := (div_le_one hsst).2 hmin
    linarith
  · have : 0 ≤ sse (slopeQ pts) (interceptQ pts) pts / sstQ pts :=
      div_nonneg (sse_nonneg _ _ _) (le_of_lt hsst)
    linarith

theorem free_r2_nan_or_fraction (pts : List (ℚ × ℚ)) :
    calculateR2 (ofRats pts) nan = nan ∨
      ∃ r : ℚ, calculateR2 (ofRats pts) nan = fin r ∧ 0 ≤ r ∧ r ≤ 1 := by
  by_cases hlen : 2 ≤ pts.length
  · have hne : pts ≠ [] := by
      intro h0; rw [h0] at hlen; simp at hlen
    rcases (denomX_nonneg pts).lt_or_eq with hD | hD
    · rcases (sstQ_nonneg pts).lt_or_eq with hs | hs
      · exact Or.inr (free_r2_core pts hlen hD hs)
      · left
        have hreg := doRegression_free _ (ne_of_gt hD) hne
        have hmin := sse_minimal _ hD hne 0 (qsum (fun p => p.2) pts / (pts.length : ℚ))
        rw [← sstQ_eq_sse _ hne, ← hs] at hmin
        have h0 : sse (slopeQ pts) (interceptQ pts) pts = 0 :=
          le_antisymm hmin (sse_nonneg _ _ _)
        rw [calculateR2_fin_raw pts nan _ _ hlen hreg, h0, ← hs]
        rfl
    · left
      exact calculateR2_of_nan_fit _ nan (by rw [length_ofRats]; exact hlen)
        (doRegression_free_degenerate pts hne hD.symm)
  · left
    exact calculateR2_short _ nan (by rw [length_ofRats]; omega)

theorem no_improving_trial (l : List DataPoint) (f : F64) (hb : calculateR2 l f ≠ nan)
    (h : removeOutlier l f = -1) :
    ∀ i, i < l.length → F64.gt (trialR2 l f i) (calculateR2 l f) = false := by
  rcases search_invariant l f hb l.length with ⟨-, hall⟩ | ⟨i, -, hst, -, -, -⟩
  · intro i hi
    exact hall i hi
  · exfalso
    have hr : removeOutlier l f = (i : Int) := by
      simp only [removeOutlier, hst]
    rw [hr] at h
    omega

/-! ## The contract of `LinearRegression` -/

/-- C1: on a sample list with fewer than 2 samples, whatever `maxOutliers` and
`forceIntercept` are, `LinearRegression` returns a NaN slope, a NaN intercept, a
NaN R² and an empty removed-index list, and `calculateR2` returns NaN. -/
theorem short_input_is_nan (trendline : List DataPoint) (maxOutliers : Int)
    (forceIntercept : F64) (h : trendline.length < 2) :
    LinearRegression trendline maxOutliers forceIntercept = (nan, nan, nan, []) ∧
      calculateR2 trendline forceIntercept = nan :=
  ⟨LinearRegression_short trendline maxOutliers forceIntercept h,
   calculateR2_short trendline forceIntercept h⟩

theorem short_input_is_nan_witness :
    [pt 3 7].length < 2 ∧
      (LinearRegression [pt 3 7] 4 (fin 1) = (nan, nan, nan, []) ∧
        calculateR2 [pt 3 7] (fin 1) = nan) :=
  ⟨by decide, short_input_is_nan [pt 3 7] 4 (fin 1) (by decide)⟩

/-- C2: perfect line.  For `a ≠ 0` and `b`, on at least 2 finite samples with
two distinct X values, all on `y = a·x + b` in exact arithmetic,
`SimpleLinearRegression` returns slope `a`, intercept `b` and R² 1, and
`LinearRegression` without forced intercept returns the same with an empty
removed-index list, whatever `maxOutliers` is. -/
theorem perfect_line (a b : ℚ) (ha : a ≠ 0) (trendline : List DataPoint) (maxOutliers : Int)
    (hlen : 2 ≤ trendline.length)
    (hx : ∃ p ∈ trendline, ∃ q ∈ trendline, p.X ≠ q.X)
    (hline : ∀ p ∈ trendline, p.X.isFinite = true ∧ p.Y = fin a * p.X + fin b) :
    SimpleLinearRegression trendline = (fin a, fin b, fin 1) ∧
      LinearRegression trendline maxOutliers nan = (fin a, fin b, fin 1, []) := by
  have hfin : ∀ p ∈ trendline, p.X.isFinite = true ∧ p.Y.isFinite = true := by
    intro p hp
    obtain ⟨h1, h2⟩ := hline p hp
    obtain ⟨x, y⟩ := p
    cases x <;> simp_all [F64.isFinite, fin_mul, fin_add]
  have hrep := ofRats_toPair trendline hfin
  have hD := denomX_pos _ (distinct_toPair trendline (fun p hp => (hfin p hp).1) hx)
  have hne : trendline.map toPair ≠ [] := by
    intro h0
    have : (trendline.map toPair).length = 0 := by rw [h0]; rfl
    rw [List.length_map] at this
    omega
  have hl : ∀ p ∈ trendline.map toPair, p.2 = a * p.1 + b := by
    intro p hp
    obtain ⟨q, hq, rfl⟩ := List.mem_map.1 hp
    obtain ⟨h1, h2⟩ := hline q hq
    obtain ⟨x, y⟩ := q
    cases x <;> simp_all [F64.isFinite, fin_mul, fin_add, toPair, F64.toRat]
  obtain ⟨hs, hi, hsst⟩ := line_fit a b ha _ hl hD hne
  have hreg : doRegression trendline nan = (fin a, fin b) := by
    have := doRegression_free _ (ne_of_gt hD) hne
    rwa [hrep, hs, hi] at this
  have hr2 : calculateR2 trendline nan = fin 1 := by
    have := calculateR2_fin (trendline.map toPair) nan a b (by rw [List.length_map]; exact hlen)
      (by rw [hrep]; exact hreg) hsst
    rw [hrep, sse_of_line a b _ hl] at this
    rw [this]; simp
  have hstop : ∀ m : Int, LinearRegression trendline m nan = (fin a, fin b, fin 1, []) := by
    intro m
    rw [LinearRegression_stop trendline m nan hlen, hreg, hr2]
    rw [hr2]
    rintro ⟨h1, -⟩
    simp only [F64.lt, decide_eq_true_eq] at h1
    norm_num at h1
  refine ⟨?_, hstop maxOutliers⟩
  simp only [SimpleLinearRegression, hstop 0]

theorem perfect_line_witness :
    (100 : ℚ) ≠ 0 ∧ 2 ≤ scenarioA.length ∧
      (∃ p ∈ scenarioA, ∃ q ∈ scenarioA, p.X ≠ q.X) ∧
      (∀ p ∈ scenarioA, p.X.isFinite = true ∧ p.Y = fin 100 * p.X + fin 0) ∧
      (SimpleLinearRegression scenarioA = (fin 100, fin 0, fin 1) ∧
        LinearRegression scenarioA 9 nan = (fin 100, fin 0, fin 1, [])) :=
  ⟨by norm_num, by decide, by decide!, by decide!,
    perfect_line 100 0 (by norm_num) scenarioA 9 (by decide) (by decide!) (by decide!)⟩

/-- C3: least squares, free intercept.  On at least 2 finite samples whose X
values are not all equal, `doRegression` without forced intercept (and so
`SimpleLinearRegression`) returns a slope `A` and an intercept `B` whose sum of
squared vertical residuals is at most that of every other line `(a', b')`. -/
theorem least_squares_free (trendline : List DataPoint) (hlen : 2 ≤ trendline.length)
    (hfin : ∀ p ∈ trendline, p.X.isFinite = true ∧ p.Y.isFinite = true)
    (hx : ∃ p ∈ trendline, ∃ q ∈ trendline, p.X ≠ q.X) :
    ∃ A B : ℚ, doRegression trendline nan = (fin A, fin B) ∧
      (SimpleLinearRegression trendline).1 = fin A ∧
      (SimpleLinearRegression trendline).2.1 = fin B ∧
      ∀ a1 b1 : ℚ, residualSS trendline A B ≤ residualSS trendline a1 b1 := by
  have hrep := ofRats_toPair trendline hfin
  have hD := denomX_pos _ (distinct_toPair trendline (fun p hp => (hfin p hp).1) hx)
  have hne : trendline.map toPair ≠ [] := by
    intro h0
    have : (trendline.map toPair).length = 0 := by rw [h0]; rfl
    rw [List.length_map] at this
    omega
  have hreg := doRegression_free _ (ne_of_gt hD) hne
  rw [hrep] at hreg
  have h0 : LinearRegression trendline 0 nan =
      ((doRegression trendline nan).1, (doRegression trendline nan).2,
        calculateR2 trendline nan, []) :=
    LinearRegression_stop trendline 0 nan hlen (by simp)
  refine ⟨slopeQ (trendline.map toPair), interceptQ (trendline.map toPair), hreg, ?_, ?_, ?_⟩
  · simp only [SimpleLinearRegression, h0, hreg]
  · simp only [SimpleLinearRegression, h0, hreg]
  · intro a1 b1
    exact sse_minimal _ hD hne a1 b1

theorem least_squares_free_witness :
    2 ≤ scenarioB.length ∧
      (∀ p ∈ scenarioB, p.X.isFinite = true ∧ p.Y.isFinite = true) ∧
      (∃ p ∈ scenarioB, ∃ q ∈ scenarioB, p.X ≠ q.X) ∧
      ∃ A B : ℚ, doRegression scenarioB nan = (fin A, fin B) ∧
        (SimpleLinearRegression scenarioB).1 = fin A ∧
        (SimpleLinearRegression scenarioB).2.1 = fin B ∧
        ∀ a1 b1 : ℚ, residualSS scenarioB A B ≤ residualSS scenarioB a1 b1 :=
  ⟨by decide, by decide!, by decide!,
    least_squares_free scenarioB (by decide) (by decide!) (by decide!)⟩

/-- C4: acceptance rule.  On at least 2 samples, if the R² of the whole input
is at least 0.95 or `maxOutliers` is 0, `LinearRegression` returns the slope and
intercept of `doRegression` on the whole input, the R² of `calculateR2` on the
whole input and an empty removed-index list; in particular
`SimpleLinearRegression` returns the fit of the whole input and removes nothing,
whatever the R². -/
theorem acceptance_rule (trendline : List DataPoint) (maxOutliers : Int) (forceIntercept : F64)
    (hlen : 2 ≤ trendline.length)
    (h : F64.ge (calculateR2 trendline forceIntercept) (fin (95 / 100)) = true ∨ maxOutliers = 0) :
    LinearRegression trendline maxOutliers forceIntercept =
        ((doRegression trendline forceIntercept).1, (doRegression trendline forceIntercept).2,
          calculateR2 trendline forceIntercept, []) ∧
      SimpleLinearRegression trendline =
        ((doRegression trendline nan).1, (doRegression trendline nan).2,
          calculateR2 trendline nan) ∧
      (LinearRegression trendline 0 nan).2.2.2 = [] := by
  have h0 : LinearRegression trendline 0 nan =
      ((doRegression trendline nan).1, (doRegression trendline nan).2,
        calculateR2 trendline nan, []) :=
    LinearRegression_stop trendline 0 nan hlen (by simp)
  refine ⟨?_, ?_, ?_⟩
  · apply LinearRegression_stop trendline maxOutliers forceIntercept hlen
    rintro ⟨hr, hm⟩
    rcases h with h | h
    · rw [lt_false_of_ge _ _ h] at hr
      exact Bool.false_ne_true hr
    · omega
  · simp only [SimpleLinearRegression, h0]
  · rw [h0]

theorem acceptance_rule_witness :
    2 ≤ diamond.length ∧
      (F64.ge (calculateR2 diamond nan) (fin (95 / 100)) = true ∨ (0 : Int) = 0) ∧
      (LinearRegression diamond 0 nan =
          ((doRegression diamond nan).1, (doRegression diamond nan).2,
            calculateR2 diamond nan, []) ∧
        SimpleLinearRegression diamond =
          ((doRegression diamond nan).1, (doRegression diamond nan).2, calculateR2 diamond nan) ∧
        (LinearRegression diamond 0 nan).2.2.2 = []) :=
  ⟨by decide, Or.inr rfl, acceptance_rule diamond 0 nan (by decide) (Or.inr rfl)⟩

/-- C5: forced intercept.  On at least 2 samples, for every `maxOutliers` and
every forced intercept `b` that is not NaN, the intercept returned by
`LinearRegression` is `b` itself, whether or not samples were removed. -/
theorem forced_intercept_exact (trendline : List DataPoint) (maxOutliers : Int) (b : F64)
    (hb : b.isNaN = false) (hlen : 2 ≤ trendline.length) :
    (LinearRegression trendline maxOutliers b).2.1 = b := by
  refine LinearRegression_induct b (fun _ _ r => r.2.1 = b) ?_ ?_ ?_ trendline maxOutliers hlen
  · intro l m _ _
    exact doRegression_snd_forced l b hb
  · intro l m _ _ _ _
    exact doRegression_snd_forced l b hb
  · intro l m i r _ _ _ _ _ _ _ _ ih
    exact ih

theorem forced_intercept_exact_witness :
    (fin 12).isNaN = false ∧ 2 ≤ scenarioB.length ∧
      (LinearRegression scenarioB 1 (fin 12)).2.1 = fin 12 :=
  ⟨rfl, by decide, forced_intercept_exact scenarioB 1 (fin 12) rfl (by decide)⟩

/-- C6: index fidelity, evaluated on `bump` with `maxOutliers = 2` and no forced
intercept.  `LinearRegression` first deletes position 0, then position 3 of the
reduced list (position 4 of the input), and reports `[3, 0]`.  Deleting
positions 3 and 0 from the input leaves `(2,2), (3,1), (5,0)`, whose fit and R²
differ from the returned ones; the returned values are those of the input
without positions 4 and 0. -/
theorem reported_index_is_not_original :
    LinearRegression bump 2 nan = (fin (-1), fin 4, fin 1, [3, 0]) ∧
      deletePositions bump [3, 0] = [pt 2 2, pt 3 1, pt 5 0] ∧
      doRegression (deletePositions bump [3, 0]) nan = (fin (-9 / 14), fin (22 / 7)) ∧
      calculateR2 (deletePositions bump [3, 0]) nan = fin (27 / 28) ∧
      doRegression (deletePositions bump [4, 0]) nan = (fin (-1), fin 4) ∧
      calculateR2 (deletePositions bump [4, 0]) nan = fin 1 := by
  decide!

/-- C7: budget.  For every sample list, every `maxOutliers ≥ 0` and every
intercept mode, the removed-index list returned by `LinearRegression`, every
entry counted (a `-1` entry too), has at most `maxOutliers` entries. -/
theorem budget_respected (trendline : List DataPoint) (maxOutliers : Int) (forceIntercept : F64)
    (hm : 0 ≤ maxOutliers) :
    ((LinearRegression trendline maxOutliers forceIntercept).2.2.2.length : Int)
      ≤ maxOutliers := by
  by_cases hlen : 2 ≤ trendline.length
  · refine LinearRegression_induct forceIntercept
      (fun _ m r => 0 ≤ m → (r.2.2.2.length : Int) ≤ m) ?_ ?_ ?_ trendline maxOutliers hlen hm
    · intro l m _ _ h0
      simpa using h0
    · intro l m _ _ hpos _ _
      simp only [List.length_singleton, Nat.cast_one]
      omega
    · intro l m i r _ _ hpos _ _ _ _ _ ih _
      have := ih (by omega)
      simp only [List.length_append, List.length_singleton, Nat.cast_add, Nat.cast_one]
      omega
  · rw [LinearRegression_short trendline maxOutliers forceIntercept (by omega)]
    simpa using hm

theorem budget_respected_witness :
    (0 : Int) ≤ 1 ∧ ((LinearRegression bump 1 nan).2.2.2.length : Int) ≤ 1 :=
  ⟨by decide, budget_respected bump 1 nan (by decide)⟩

/-- C8: empty report when nothing is removed, evaluated on `twoPoints` with
`maxOutliers = 1` and forced intercept 0.  The R² is 9/10, no deletion is
possible, the returned fit is the fit of the whole input, and the returned
removed-index list is `[-1]`, not empty. -/
theorem sentinel_reported_when_nothing_removed :
    removeOutlier twoPoints (fin 0) = -1 ∧
      LinearRegression twoPoints 1 (fin 0) =
        ((doRegression twoPoints (fin 0)).1, (doRegression twoPoints (fin 0)).2,
          calculateR2 twoPoints (fin 0), [-1]) ∧
      LinearRegression twoPoints 1 (fin 0) = (fin (7 / 5), fin 0, fin (9 / 10), [-1]) := by
  decide!

/-- C9: no mutation of the caller's input, evaluated on the samples of
`TestLinearRegression` held in a slice of length and capacity 8, with
`maxOutliers = 9` and no forced intercept.  The call returns the values the
test expects, and the caller's eight samples afterwards are
`(1,200), (2,300), (4,500), (5,600), (7,800), (8,900), (8,900), (8,900)`:
the deletions of line 60 were made in the caller's backing array. -/
theorem caller_slice_overwritten :
    (LinearRegressionMem scenarioB 8 9 nan).1 = (fin 100, fin 100, fin 1, [2, 5]) ∧
      (LinearRegressionMem scenarioB 8 9 nan).2.take 8 =
        [pt 1 200, pt 2 300, pt 4 500, pt 5 600, pt 7 800, pt 8 900, pt 8 900, pt 8 900] ∧
      (LinearRegressionMem scenarioB 8 9 nan).2.take 8 ≠ scenarioB.take 8 := by
  decide!

/-- C10: a round without improvement keeps the baseline.  On at least 2
samples with `maxOutliers > 0`, if the baseline R² is below 0.95 and
`removeOutlier` returns `-1`, then `LinearRegression` returns the slope and
intercept of `doRegression` and the R² of `calculateR2` on the whole input. -/
theorem no_improvement_keeps_baseline (trendline : List DataPoint) (maxOutliers : Int)
    (forceIntercept : F64) (hlen : 2 ≤ trendline.length) (hm : maxOutliers > 0)
    (hr : F64.lt (calculateR2 trendline forceIntercept) (fin (95 / 100)) = true)
    (hi : removeOutlier trendline forceIntercept = -1) :
    (LinearRegression trendline maxOutliers forceIntercept).1
        = (doRegression trendline forceIntercept).1 ∧
      (LinearRegression trendline maxOutliers forceIntercept).2.1
        = (doRegression trendline forceIntercept).2 ∧
      (LinearRegression trendline maxOutliers forceIntercept).2.2.1
        = calculateR2 trendline forceIntercept := by
  rw [LinearRegression_sentinel trendline maxOutliers forceIntercept hlen hr hm hi]
  exact ⟨rfl, rfl, rfl⟩

theorem no_improvement_keeps_baseline_witness :
    2 ≤ twoPoints.length ∧ (3 : Int) > 0 ∧
      F64.lt (calculateR2 twoPoints (fin 0)) (fin (95 / 100)) = true ∧
      removeOutlier twoPoints (fin 0) = -1 ∧
      ((LinearRegression twoPoints 3 (fin 0)).1 = (doRegression twoPoints (fin 0)).1 ∧
        (LinearRegression twoPoints 3 (fin 0)).2.1 = (doRegression twoPoints (fin 0)).2 ∧
        (LinearRegression twoPoints 3 (fin 0)).2.2.1 = calculateR2 twoPoints (fin 0)) :=
  ⟨by decide, by decide, by decide!, by decide!,
    no_improvement_keeps_baseline twoPoints 3 (fin 0) (by decide) (by decide) (by decide!)
      (by decide!)⟩

/-- C11: terminal states.  On at least 2 samples with `maxOutliers ≥ 0`, the
result `(slope, intercept, r2, removed)` of `LinearRegression` satisfies one of:
(a) `r2` is not below 0.95 (at least 0.95, or NaN); (b) `removed` has
`maxOutliers` entries; (c) a no-improvement round occurred: `removed` contains
`-1`, and on the final working list (the replay of `removed` on the input)
`removeOutlier` returns `-1`, `r2` is its `calculateR2`, and no position has a
trial R² greater than `r2`.  Hence the search never stops with `r2 < 0.95`,
budget remaining and an improving candidate untried. -/
theorem terminal_states_exhaustive (trendline : List DataPoint) (maxOutliers : Int)
    (forceIntercept : F64) (hlen : 2 ≤ trendline.length) (hm : 0 ≤ maxOutliers) :
    (F64.lt (LinearRegression trendline maxOutliers forceIntercept).2.2.1 (fin (95 / 100)) = false ∨
      ((LinearRegression trendline maxOutliers forceIntercept).2.2.2.length : Int) = maxOutliers ∨
      ((-1 : Int) ∈ (LinearRegression trendline maxOutliers forceIntercept).2.2.2 ∧
        removeOutlier (replay trendline
          (LinearRegression trendline maxOutliers forceIntercept).2.2.2) forceIntercept = -1 ∧
        (LinearRegression trendline maxOutliers forceIntercept).2.2.1 =
          calculateR2 (replay trendline
            (LinearRegression trendline maxOutliers forceIntercept).2.2.2) forceIntercept ∧
        ∀ i, i < (replay trendline
            (LinearRegression trendline maxOutliers forceIntercept).2.2.2).length →
          F64.gt (trialR2 (replay trendline
              (LinearRegression trendline maxOutliers forceIntercept).2.2.2) forceIntercept i)
            (LinearRegression trendline maxOutliers forceIntercept).2.2.1 = false)) ∧
    (F64.lt (LinearRegression trendline maxOutliers forceIntercept).2.2.1 (fin (95 / 100)) = true →
      ((LinearRegression trendline maxOutliers forceIntercept).2.2.2.length : Int) < maxOutliers →
      ∀ i, i < (replay trendline
          (LinearRegression trendline maxOutliers forceIntercept).2.2.2).length →
        F64.gt (trialR2 (replay trendline
            (LinearRegression trendline maxOutliers forceIntercept).2.2.2) forceIntercept i)
          (LinearRegression trendline maxOutliers forceIntercept).2.2.1 = false) := by
  have key : F64.lt (LinearRegression trendline maxOutliers forceIntercept).2.2.1
        (fin (95 / 100)) = false ∨
      ((LinearRegression trendline maxOutliers forceIntercept).2.2.2.length : Int) = maxOutliers ∨
      ((-1 : Int) ∈ (LinearRegression trendline maxOutliers forceIntercept).2.2.2 ∧
        removeOutlier (replay trendline
          (LinearRegression trendline maxOutliers forceIntercept).2.2.2) forceIntercept = -1 ∧
        (LinearRegression trendline maxOutliers forceIntercept).2.2.1 =
          calculateR2 (replay trendline
            (LinearRegression trendline maxOutliers forceIntercept).2.2.2) forceIntercept ∧
        ∀ i, i < (replay trendline
            (LinearRegression trendline maxOutliers forceIntercept).2.2.2).length →
          F64.gt (trialR2 (replay trendline
              (LinearRegression trendline maxOutliers forceIntercept).2.2.2) forceIntercept i)
            (LinearRegression trendline maxOutliers forceIntercept).2.2.1 = false) := by
    refine LinearRegression_induct forceIntercept
      (fun l m r => 0 ≤ m → (F64.lt r.2.2.1 (fin (95 / 100)) = false ∨
        (r.2.2.2.length : Int) = m ∨
        ((-1 : Int) ∈ r.2.2.2 ∧ removeOutlier (replay l r.2.2.2) forceIntercept = -1 ∧
          r.2.2.1 = calculateR2 (replay l r.2.2.2) forceIntercept ∧
          ∀ i, i < (replay l r.2.2.2).length →
            F64.gt (trialR2 (replay l r.2.2.2) forceIntercept i) r.2.2.1 = false)))
      ?_ ?_ ?_ trendline maxOutliers hlen hm
    · intro l m _ hs h0
      by_cases hr : F64.lt (calculateR2 l forceIntercept) (fin (95 / 100)) = true
      · right; left
        have : ¬ m > 0 := fun hpos => hs ⟨hr, hpos⟩
        simp only [List.length_nil, Nat.cast_zero]
        omega
      · left
        simpa using hr
    · intro l m _ hr _ hi _
      right; right
      refine ⟨by simp, ?_, ?_, ?_⟩
      · simp only [replay_sentinel]
        exact hi
      · simp only [replay_sentinel]
      · simp only [replay_sentinel]
        exact no_improving_trial l forceIntercept (lt_ne_nan_left _ _ hr) hi
    · intro l m i r _ _ hpos _ _ _ _ _ ih _
      rcases ih (by omega) with h | h | ⟨h1, h2, h3, h4⟩
      · exact Or.inl h
      · right; left
        simp only [List.length_append, List.length_singleton, Nat.cast_add, Nat.cast_one]
        omega
      · right; right
        simp only [replay_snoc]
        exact ⟨List.mem_append_left _ h1, h2, h3, h4⟩
  refine ⟨key, ?_⟩
  intro hlt hbudget
  rcases key with h | h | ⟨-, -, -, h⟩
  · rw [h] at hlt
    exact absurd hlt Bool.false_ne_true
  · omega
  · exact h

theorem terminal_states_exhaustive_witness :
    2 ≤ threePoints.length ∧ (0 : Int) ≤ 5 ∧
      ((F64.lt (LinearRegression threePoints 5 (fin 0)).2.2.1 (fin (95 / 100)) = false ∨
        ((LinearRegression threePoints 5 (fin 0)).2.2.2.length : Int) = 5 ∨
        ((-1 : Int) ∈ (LinearRegression threePoints 5 (fin 0)).2.2.2 ∧
          removeOutlier (replay threePoints (LinearRegression threePoints 5 (fin 0)).2.2.2) (fin 0) = -1 ∧
          (LinearRegression threePoints 5 (fin 0)).2.2.1 =
            calculateR2 (replay threePoints (LinearRegression threePoints 5 (fin 0)).2.2.2) (fin 0) ∧
          ∀ i, i < (replay threePoints (LinearRegression threePoints 5 (fin 0)).2.2.2).length →
            F64.gt (trialR2 (replay threePoints (LinearRegression threePoints 5 (fin 0)).2.2.2) (fin 0) i)
              (LinearRegression threePoints 5 (fin 0)).2.2.1 = false)) ∧
      (F64.lt (LinearRegression threePoints 5 (fin 0)).2.2.1 (fin (95 / 100)) = true →
        ((LinearRegression threePoints 5 (fin 0)).2.2.2.length : Int) < 5 →
        ∀ i, i < (replay threePoints (LinearRegression threePoints 5 (fin 0)).2.2.2).length →
          F64.gt (trialR2 (replay threePoints (LinearRegression threePoints 5 (fin 0)).2.2.2) (fin 0) i)
            (LinearRegression threePoints 5 (fin 0)).2.2.1 = false)) :=
  ⟨by decide, by decide, terminal_states_exhaustive threePoints 5 (fin 0) (by decide) (by decide)⟩

/-- C12: candidate search.  When the baseline R² is not NaN (which needs at
least 2 samples), `removeOutlier` returns `-1` if and only if no position has a
trial R² that is not NaN and strictly greater than the baseline; otherwise it
returns a position `i` whose trial R² exceeds the baseline, is at least every
trial R² that is not NaN, and is strictly greater than every non-NaN trial R² at
a lower position. -/
theorem candidate_search (trendline : List DataPoint) (forceIntercept : F64)
    (hdef : calculateR2 trendline forceIntercept ≠ nan) :
    (removeOutlier trendline forceIntercept = -1 ↔
        ¬ ∃ i, i < trendline.length ∧ trialR2 trendline forceIntercept i ≠ nan ∧
          F64.gt (trialR2 trendline forceIntercept i)
            (calculateR2 trendline forceIntercept) = true) ∧
      (removeOutlier trendline forceIntercept ≠ -1 →
        ∃ i, i < trendline.length ∧ removeOutlier trendline forceIntercept = (i : Int) ∧
          F64.gt (trialR2 trendline forceIntercept i)
            (calculateR2 trendline forceIntercept) = true ∧
          (∀ j, j < trendline.length → trialR2 trendline forceIntercept j ≠ nan →
            F64.ge (trialR2 trendline forceIntercept i)
              (trialR2 trendline forceIntercept j) = true) ∧
          ∀ j, j < i → trialR2 trendline forceIntercept j = nan ∨
            F64.lt (trialR2 trendline forceIntercept j)
              (trialR2 trendline forceIntercept i) = true) := by
  rcases search_invariant trendline forceIntercept hdef trendline.length with
    ⟨hst, hall⟩ | ⟨i, hi, hst, hlt, hmax, hlow⟩
  · have hr : removeOutlier trendline forceIntercept = -1 := by
      simp only [removeOutlier, hst]
    refine ⟨⟨fun _ => ?_, fun _ => hr⟩, fun hne => absurd hr hne⟩
    rintro ⟨i, hi, -, hg⟩
    have := hall i hi
    simp only [F64.gt] at hg
    rw [this] at hg
    exact Bool.false_ne_true hg
  · have hr : removeOutlier trendline forceIntercept = (i : Int) := by
      simp only [removeOutlier, hst]
    have hne : removeOutlier trendline forceIntercept ≠ -1 := by
      rw [hr]; omega
    have hti : trialR2 trendline forceIntercept i ≠ nan := lt_ne_nan_right _ _ hlt
    refine ⟨⟨fun h => absurd h hne, fun h => ?_⟩, fun _ => ?_⟩
    · exact absurd ⟨i, hi, hti, hlt⟩ h
    · exact ⟨i, hi, hr, hlt, fun j hj hn => ge_of_not_lt _ _ hti hn (hmax j hj), hlow⟩

theorem candidate_search_witness :
    calculateR2 bump nan ≠ nan ∧
      ((removeOutlier bump nan = -1 ↔
          ¬ ∃ i, i < bump.length ∧ trialR2 bump nan i ≠ nan ∧
            F64.gt (trialR2 bump nan i) (calculateR2 bump nan) = true) ∧
        (removeOutlier bump nan ≠ -1 →
          ∃ i, i < bump.length ∧ removeOutlier bump nan = (i : Int) ∧
            F64.gt (trialR2 bump nan i) (calculateR2 bump nan) = true ∧
            (∀ j, j < bump.length → trialR2 bump nan j ≠ nan →
              F64.ge (trialR2 bump nan i) (trialR2 bump nan j) = true) ∧
            ∀ j, j < i → trialR2 bump nan j = nan ∨
              F64.lt (trialR2 bump nan j) (trialR2 bump nan i) = true)) :=
  ⟨by decide!, candidate_search bump nan (by decide!)⟩

/-- C13: `calculateR2` is the textbook coefficient of determination.  On at
least 2 finite samples whose Y values are not all equal, when `doRegression`
returns the numbers `(A, B)`, `calculateR2` is
`1 − Σ(y_i − (A·x_i + B))² / Σ(y_i − ȳ)²` in exact arithmetic, and the divisor
the code computes, `Σy² − (Σy)²/n`, is `Σ(y_i − ȳ)²`. -/
theorem calculateR2_is_textbook (trendline : List DataPoint) (forceIntercept : F64) (A B : ℚ)
    (hlen : 2 ≤ trendline.length)
    (hfin : ∀ p ∈ trendline, p.X.isFinite = true ∧ p.Y.isFinite = true)
    (hy : ∃ p ∈ trendline, ∃ q ∈ trendline, p.Y ≠ q.Y)
    (hfit : doRegression trendline forceIntercept = (fin A, fin B)) :
    calculateR2 trendline forceIntercept = fin (textbookR2 trendline A B) ∧
      (trendline.foldl yStep ⟨fin 0, fin 0⟩).sumYSquared
          - ((trendline.foldl yStep ⟨fin 0, fin 0⟩).sumY
              * (trendline.foldl yStep ⟨fin 0, fin 0⟩).sumY) / fin (trendline.length : ℚ)
        = fin (totalSS trendline) := by
  have hrep := ofRats_toPair trendline hfin
  have hne := map_toPair_ne_nil trendline hlen
  have hl0 : trendline ≠ [] := by
    intro h0; rw [h0] at hlen; simp at hlen
  have hn0 : (trendline.length : ℚ) ≠ 0 := by
    have : trendline.length ≠ 0 := by omega
    exact_mod_cast this
  have hsst := sstQ_pos _ (distinctY_toPair trendline (fun p hp => (hfin p hp).2) hy)
  constructor
  · have := calculateR2_fin (trendline.map toPair) forceIntercept A B
      (by rw [List.length_map]; exact hlen) (by rw [hrep]; exact hfit) (ne_of_gt hsst)
    rw [hrep] at this
    rw [this, textbookR2, residualSS, totalSS_eq trendline hl0]
  · have hf := foldl_yStep (trendline.map toPair) 0 0
    rw [hrep] at hf
    rw [hf, totalSS_eq trendline hl0, sstQ]
    simp only [zero_add, fin_mul, List.length_map]
    rw [fin_div _ _ hn0, fin_sub]

theorem calculateR2_is_textbook_witness :
    2 ≤ threePoints.length ∧
      (∀ p ∈ threePoints, p.X.isFinite = true ∧ p.Y.isFinite = true) ∧
      (∃ p ∈ threePoints, ∃ q ∈ threePoints, p.Y ≠ q.Y) ∧
      doRegression threePoints nan = (fin (-1 / 2), fin (7 / 3)) ∧
      (calculateR2 threePoints nan = fin (textbookR2 threePoints (-1 / 2) (7 / 3)) ∧
        (threePoints.foldl yStep ⟨fin 0, fin 0⟩).sumYSquared
            - ((threePoints.foldl yStep ⟨fin 0, fin 0⟩).sumY
                * (threePoints.foldl yStep ⟨fin 0, fin 0⟩).sumY)
              / fin (threePoints.length : ℚ)
          = fin (totalSS threePoints)) :=
  ⟨by decide, by decide!, by decide!, by decide!,
    calculateR2_is_textbook threePoints nan (-1 / 2) (7 / 3) (by decide) (by decide!)
      (by decide!) (by decide!)⟩

/-- C14: least squares with a forced intercept.  For every forced intercept
`b` that is a number and every list of finite samples whose `Σx²` (the
accumulator `sumXSquare` of `doRegression`) is not 0, `doRegression` returns
the intercept `b` and a slope `A` whose sum of squared residuals is at most that
of every other line with intercept `b`. -/
theorem least_squares_forced (trendline : List DataPoint) (b : ℚ)
    (hfin : ∀ p ∈ trendline, p.X.isFinite = true ∧ p.Y.isFinite = true)
    (hx : (trendline.foldl regStep ⟨fin 0, fin 0, fin 0, fin 0⟩).sumXSquare ≠ fin 0) :
    ∃ A : ℚ, doRegression trendline (fin b) = (fin A, fin b) ∧
      ∀ a1 : ℚ, residualSS trendline A b ≤ residualSS trendline a1 b := by
  have hrep := ofRats_toPair trendline hfin
  have hf := foldl_regStep (trendline.map toPair) 0 0 0 0
  rw [hrep] at hf
  have hs : qsum (fun p => p.1 * p.1) (trendline.map toPair) ≠ 0 := by
    intro h0
    apply hx
    rw [hf]
    simp [h0]
  have hreg := doRegression_forced (trendline.map toPair) b hs
  rw [hrep] at hreg
  exact ⟨_, hreg, fun a1 => sse_minimal_forced _ b a1 hs⟩

theorem least_squares_forced_witness :
    (∀ p ∈ threePoints, p.X.isFinite = true ∧ p.Y.isFinite = true) ∧
      (threePoints.foldl regStep ⟨fin 0, fin 0, fin 0, fin 0⟩).sumXSquare ≠ fin 0 ∧
      ∃ A : ℚ, doRegression threePoints (fin 0) = (fin A, fin 0) ∧
        ∀ a1 : ℚ, residualSS threePoints A 0 ≤ residualSS threePoints a1 0 :=
  ⟨by decide!, by decide!, least_squares_forced threePoints 0 (by decide!) (by decide!)⟩

/-- C15: replay.  On at least 2 samples, for every `maxOutliers` and intercept
mode, replaying the returned removed-index list on the input (from its last
entry to its first, skipping `-1`, each index taken in the working list as it
stands) gives a list whose `doRegression` slope and intercept and whose
`calculateR2` value are the slope, intercept and R² that `LinearRegression`
returned. -/
theorem replay_reproduces_fit (trendline : List DataPoint) (maxOutliers : Int)
    (forceIntercept : F64) (hlen : 2 ≤ trendline.length) :
    (LinearRegression trendline maxOutliers forceIntercept).1 =
        (doRegression (replay trendline
          (LinearRegression trendline maxOutliers forceIntercept).2.2.2) forceIntercept).1 ∧
      (LinearRegression trendline maxOutliers forceIntercept).2.1 =
        (doRegression (replay trendline
          (LinearRegression trendline maxOutliers forceIntercept).2.2.2) forceIntercept).2 ∧
      (LinearRegression trendline maxOutliers forceIntercept).2.2.1 =
        calculateR2 (replay trendline
          (LinearRegression trendline maxOutliers forceIntercept).2.2.2) forceIntercept := by
  refine LinearRegression_induct forceIntercept
    (fun l _ r => r.1 = (doRegression (replay l r.2.2.2) forceIntercept).1 ∧
      r.2.1 = (doRegression (replay l r.2.2.2) forceIntercept).2 ∧
      r.2.2.1 = calculateR2 (replay l r.2.2.2) forceIntercept) ?_ ?_ ?_ trendline maxOutliers hlen
  · intro l m _ _
    exact ⟨rfl, rfl, rfl⟩
  · intro l m _ _ _ _
    simp [replay_sentinel]
  · intro l m i r _ _ _ _ _ _ _ _ ih
    simp only [replay_snoc]
    exact ih

theorem replay_reproduces_fit_witness :
    2 ≤ bump.length ∧
      ((LinearRegression bump 2 nan).1 =
          (doRegression (replay bump (LinearRegression bump 2 nan).2.2.2) nan).1 ∧
        (LinearRegression bump 2 nan).2.1 =
          (doRegression (replay bump (LinearRegression bump 2 nan).2.2.2) nan).2 ∧
        (LinearRegression bump 2 nan).2.2.1 =
          calculateR2 (replay bump (LinearRegression bump 2 nan).2.2.2) nan) :=
  ⟨by decide, replay_reproduces_fit bump 2 nan (by decide)⟩

/-- C16: the search never makes the fit worse.  On at least 2 samples whose
baseline R² (`calculateR2` of the whole input) is not NaN, for every
`maxOutliers` and intercept mode, the R² returned by `LinearRegression` is at
least the baseline R², and strictly greater when the removed-index list has a
non-negative entry. -/
theorem search_never_worsens (trendline : List DataPoint) (maxOutliers : Int)
    (forceIntercept : F64) (hlen : 2 ≤ trendline.length)
    (hdef : calculateR2 trendline forceIntercept ≠ nan) :
    F64.ge (LinearRegression trendline maxOutliers forceIntercept).2.2.1
        (calculateR2 trendline forceIntercept) = true ∧
      ((∃ i ∈ (LinearRegression trendline maxOutliers forceIntercept).2.2.2, 0 ≤ i) →
        F64.gt (LinearRegression trendline maxOutliers forceIntercept).2.2.1
          (calculateR2 trendline forceIntercept) = true) := by
  refine LinearRegression_induct forceIntercept
    (fun l _ r => calculateR2 l forceIntercept ≠ nan →
      (F64.ge r.2.2.1 (calculateR2 l forceIntercept) = true ∧
        ((∃ i ∈ r.2.2.2, 0 ≤ i) → F64.gt r.2.2.1 (calculateR2 l forceIntercept) = true)))
    ?_ ?_ ?_ trendline maxOutliers hlen hdef
  · intro l m _ _ hd
    refine ⟨ge_refl_f64 _ hd, ?_⟩
    rintro ⟨i, hi, -⟩
    simp at hi
  · intro l m _ _ _ _ hd
    refine ⟨ge_refl_f64 _ hd, ?_⟩
    rintro ⟨i, hi, h0⟩
    simp only [List.mem_singleton] at hi
    omega
  · intro l m i r _ _ _ _ _ _ hlt _ ih hd
    have hge := (ih (lt_ne_nan_right _ _ hlt)).1
    have hgt : F64.lt (calculateR2 l forceIntercept) r.2.2.1 = true :=
      lt_of_lt_of_ge _ _ _ hlt hge
    exact ⟨ge_of_lt _ _ hgt, fun _ => hgt⟩

theorem search_never_worsens_witness :
    2 ≤ bump.length ∧ calculateR2 bump nan ≠ nan ∧
      (F64.ge (LinearRegression bump 2 nan).2.2.1 (calculateR2 bump nan) = true ∧
        ((∃ i ∈ (LinearRegression bump 2 nan).2.2.2, 0 ≤ i) →
          F64.gt (LinearRegression bump 2 nan).2.2.1 (calculateR2 bump nan) = true)) :=
  ⟨by decide, by decide!, search_never_worsens bump 2 nan (by decide) (by decide!)⟩

/-- C17: at least two samples survive.  On `n ≥ 2` samples, for every
`maxOutliers` and intercept mode, the removed-index list of `LinearRegression`
has at most `n − 2` non-negative entries; the working list of every level of
the recursion (the replay of any tail of the list) has at least 2 samples, as
has the argument of the recursive call whenever `removeOutlier` finds a
position; and on 2 samples nothing is removed. -/
theorem two_samples_survive (trendline : List DataPoint) (maxOutliers : Int)
    (forceIntercept : F64) (hlen : 2 ≤ trendline.length) :
    removedCount (LinearRegression trendline maxOutliers forceIntercept).2.2.2
        ≤ trendline.length - 2 ∧
      (∀ k : Nat, 2 ≤ (replay trendline
        ((LinearRegression trendline maxOutliers forceIntercept).2.2.2.drop k)).length) ∧
      (removeOutlier trendline forceIntercept ≠ -1 →
        2 ≤ (trendline.eraseIdx (removeOutlier trendline forceIntercept).toNat).length) ∧
      (trendline.length = 2 →
        removedCount (LinearRegression trendline maxOutliers forceIntercept).2.2.2 = 0) := by
  obtain ⟨h1, h2⟩ := replay_length trendline forceIntercept maxOutliers hlen
  refine ⟨by omega, fun k => le_trans h1 (replay_drop_length _ _ k), ?_, fun h => by omega⟩
  intro hne
  obtain ⟨i, hi, -, h3, -⟩ := removeOutlier_found trendline forceIntercept hne
  rw [hi, Int.toNat_ofNat]
  exact h3

theorem two_samples_survive_witness :
    2 ≤ bump.length ∧
      (removedCount (LinearRegression bump 9 nan).2.2.2 ≤ bump.length - 2 ∧
        (∀ k : Nat, 2 ≤ (replay bump ((LinearRegression bump 9 nan).2.2.2.drop k)).length) ∧
        (removeOutlier bump nan ≠ -1 →
          2 ≤ (bump.eraseIdx (removeOutlier bump nan).toNat).length) ∧
        (bump.length = 2 → removedCount (LinearRegression bump 9 nan).2.2.2 = 0)) :=
  ⟨by decide, two_samples_survive bump 9 nan (by decide)⟩

/-- C18: without forced intercept R² is a fraction.  For finite samples in
exact arithmetic: on at least 2 samples whose X values are not all equal and
whose Y values are not all equal, `calculateR2` without forced intercept is a
number between 0 and 1; and on every list it is NaN or such a number, so it is
never negative. -/
theorem r2_is_fraction_free (trendline : List DataPoint)
    (hfin : ∀ p ∈ trendline, p.X.isFinite = true ∧ p.Y.isFinite = true) :
    (2 ≤ trendline.length → (∃ p ∈ trendline, ∃ q ∈ trendline, p.X ≠ q.X) →
        (∃ p ∈ trendline, ∃ q ∈ trendline, p.Y ≠ q.Y) →
        ∃ r : ℚ, calculateR2 trendline nan = fin r ∧ 0 ≤ r ∧ r ≤ 1) ∧
      (calculateR2 trendline nan = nan ∨
        ∃ r : ℚ, calculateR2 trendline nan = fin r ∧ 0 ≤ r ∧ r ≤ 1) := by
  have hrep := ofRats_toPair trendline hfin
  constructor
  · intro hlen hx hy
    have hD := denomX_pos _ (distinct_toPair trendline (fun p hp => (hfin p hp).1) hx)
    have hsst := sstQ_pos _ (distinctY_toPair trendline (fun p hp => (hfin p hp).2) hy)
    have := free_r2_core (trendline.map toPair) (by rw [List.length_map]; exact hlen) hD hsst
    rwa [hrep] at this
  · have := free_r2_nan_or_fraction (trendline.map toPair)
    rwa [hrep] at this

theorem r2_is_fraction_free_witness :
    (∀ p ∈ threePoints, p.X.isFinite = true ∧ p.Y.isFinite = true) ∧
      2 ≤ threePoints.length ∧
      (∃ p ∈ threePoints, ∃ q ∈ threePoints, p.X ≠ q.X) ∧
      (∃ p ∈ threePoints, ∃ q ∈ threePoints, p.Y ≠ q.Y) ∧
      ∃ r : ℚ, calculateR2 threePoints nan = fin r ∧ 0 ≤ r ∧ r ≤ 1 :=
  ⟨by decide!, by decide, by decide!, by decide!,
    (r2_is_fraction_free threePoints (by decide!)).1 (by decide) (by decide!) (by decide!)⟩

/-- C19, as stated, fails: on `threePoints` with `maxOutliers = 5` and forced
intercept 0, position 2 is deleted, the next round finds no improvement, and the
returned list is `[-1, 2]`: it contains `-1`, and its last entry is `2`. -/
theorem sentinel_is_not_last :
    (LinearRegression threePoints 5 (fin 0)).2.2.2 = [-1, 2] ∧
      (-1 : Int) ∈ (LinearRegression threePoints 5 (fin 0)).2.2.2 ∧
      (LinearRegression threePoints 5 (fin 0)).2.2.2.getLast? ≠ some (-1) := by
  decide!

/-- C19, amended: for every sample list, `maxOutliers` and intercept mode, when
the removed-index list returned by `LinearRegression` contains `-1`, it contains
it exactly once, its length is one more than the number of its non-negative
entries, and the `-1` is the first entry of the list. -/
theorem sentinel_is_first (l : List DataPoint) (m : Int) (f : F64)
    (h : (-1 : Int) ∈ (LinearRegression l m f).2.2.2) :
    (LinearRegression l m f).2.2.2.count (-1) = 1 ∧
      (LinearRegression l m f).2.2.2.length
        = removedCount (LinearRegression l m f).2.2.2 + 1 ∧
      (LinearRegression l m f).2.2.2.head? = some (-1) := by
  by_cases hlen : 2 ≤ l.length
  · refine LinearRegression_induct f
      (fun _ _ r => (-1 : Int) ∈ r.2.2.2 →
        (r.2.2.2.count (-1) = 1 ∧ r.2.2.2.length = removedCount r.2.2.2 + 1 ∧
          r.2.2.2.head? = some (-1))) ?_ ?_ ?_ l m hlen h
    · intro l m _ _ hmem
      simp at hmem
    · intro l m _ _ _ _ _
      show ([-1] : List Int).count (-1) = 1 ∧
        ([-1] : List Int).length = removedCount [-1] + 1 ∧ ([-1] : List Int).head? = some (-1)
      exact ⟨by decide, by decide, rfl⟩
    · intro l m i r _ _ _ _ _ _ _ _ ih hmem
      have hi : ((i : Int) = -1) = False := by
        apply eq_false
        omega
      have hne : (-1 : Int) ≠ (i : Int) := by omega
      have hr : (-1 : Int) ∈ r.2.2.2 := by
        rcases List.mem_append.1 hmem with h1 | h1
        · exact h1
        · simp only [List.mem_singleton] at h1
          exact absurd h1 hne
      obtain ⟨h1, h2, h3⟩ := ih hr
      refine ⟨?_, ?_, ?_⟩
      · rw [List.count_append, h1]
        simp [hi]
      · rw [removedCount_snoc, List.length_append, h2]
        rfl
      · cases hrl : r.2.2.2 with
        | nil => rw [hrl] at hr; simp at hr
        | cons a as =>
          rw [hrl] at h3
          simpa using h3
  · rw [LinearRegression_short l m f (by omega)] at h
    simp at h

theorem sentinel_is_first_witness :
    (-1 : Int) ∈ (LinearRegression threePoints 5 (fin 0)).2.2.2 ∧
      ((LinearRegression threePoints 5 (fin 0)).2.2.2.count (-1) = 1 ∧
        (LinearRegression threePoints 5 (fin 0)).2.2.2.length
          = removedCount (LinearRegression threePoints 5 (fin 0)).2.2.2 + 1 ∧
        (LinearRegression threePoints 5 (fin 0)).2.2.2.head? = some (-1)) :=
  ⟨by decide!, sentinel_is_first threePoints 5 (fin 0) (by decide!)⟩

/-- C20: R² can exceed 1 with a forced intercept.  With the operations rounded
as binary64 does, on `nearlyFlat` (2 samples, Y values `2²⁷+1` and `2²⁷+2`)
with forced intercept 0 the divisor `Σy² − (Σy)²/n` of `calculateR2` comes out
as `-8` and `calculateR2` returns `3602879701896405/8` (about `4.5·10¹⁴`); so
there is a list of at least 2 samples, Y values not all equal, and a forced
intercept that is a number, for which `calculateR2` is greater than 1, and
`LinearRegression` returns that R² for every `maxOutliers`.  The excess comes
from the rounding: with exact operations the same input gives
`-36028797018963963/5`, and `calculateR2` is never greater than 1. -/
theorem r2_above_one_forced :
    calculateR2R nearlyFlat (fin 0) = fin (3602879701896405 / 8) ∧
      F64.subR (nearlyFlat.foldl yStepR ⟨fin 0, fin 0⟩).sumYSquared
          (F64.divR
            (F64.mulR (nearlyFlat.foldl yStepR ⟨fin 0, fin 0⟩).sumY
              (nearlyFlat.foldl yStepR ⟨fin 0, fin 0⟩).sumY)
            (fin (nearlyFlat.length : ℚ)).rnd) = fin (-8) ∧
      (∃ (trendline : List DataPoint) (b : F64), 2 ≤ trendline.length ∧
        (∃ p ∈ trendline, ∃ q ∈ trendline, p.Y ≠ q.Y) ∧ b.isNaN = false ∧
        F64.gt (calculateR2R trendline b) (fin 1) = true ∧
        ∀ maxOutliers : Int,
          (LinearRegressionR trendline maxOutliers b).2.2.1 = calculateR2R trendline b ∧
          F64.gt (LinearRegressionR trendline maxOutliers b).2.2.1 (fin 1) = true) ∧
      calculateR2 nearlyFlat (fin 0) = fin (-36028797018963963 / 5) ∧
      ∀ (trendline : List DataPoint) (b : F64), F64.gt (calculateR2 trendline b) (fin 1) = false := by
  have hgt : F64.gt (calculateR2R nearlyFlat (fin 0)) (fin 1) = true := by decide!
  have h95 : ¬ (F64.lt (calculateR2R nearlyFlat (fin 0)) (round64 (95 / 100)) = true) := by
    decide!
  have hlen : ¬ nearlyFlat.length < 2 := by decide
  have hLR : ∀ m : Int,
      (LinearRegressionR nearlyFlat m (fin 0)).2.2.1 = calculateR2R nearlyFlat (fin 0) := by
    intro m
    rw [LinearRegressionR]
    simp only [hlen, if_false, h95, Bool.false_eq_true, false_and]
  refine ⟨by decide!, by decide!, ?_, by decide!, calculateR2_le_one⟩
  refine ⟨nearlyFlat, fin 0, by decide, by decide!, rfl, hgt, fun m => ⟨hLR m, ?_⟩⟩
  rw [hLR m]
  exact hgt

end BcStat
